import Mathlib

/-!
Shallow embedding of the digest index and selection engine of
docker-registry-util: `docker_registry_util/cache.py` (ImageDigestCache),
`docker_registry_util/query.py` (DockerRegistryQuery) and
`docker_registry_util/digest.py` (ContentDigest).

Python dictionaries are modeled as insertion-ordered association lists,
Python sets as lists without duplicates (kept in insertion order),
`bytes` as lists of byte values.  Operations that can raise a Python
exception return `Except`.
-/

namespace DRU

/-- Digests are byte strings (Python `bytes`): lists of byte values. -/
abbrev Digest := List Nat

/-! ## Association lists: the model of Python `dict` -/

/-- Lookup, modeling Python `dict.get` (no default-factory side effect). -/
def alookup {α β : Type} [DecidableEq α] (l : List (α × β)) (k : α) : Option β :=
  match l with
  | [] => none
  | (k', v) :: rest => if k' = k then some v else alookup rest k

/-- Update an existing binding in place, or append a fresh one, modeling
assignment into a Python dict (which keeps insertion order). -/
def ainsert {α β : Type} [DecidableEq α] (l : List (α × β)) (k : α) (v : β) :
    List (α × β) :=
  match l with
  | [] => [(k, v)]
  | (k', v') :: rest => if k' = k then (k, v) :: rest else (k', v') :: ainsert rest k v

/-- Remove the first binding of a key, modeling Python `del d[k]` on a dict with
unique keys. -/
def aerase {α β : Type} [DecidableEq α] (l : List (α × β)) (k : α) : List (α × β) :=
  match l with
  | [] => []
  | (k', v') :: rest => if k' = k then rest else (k', v') :: aerase rest k

/-- The keys of an association list, in order. -/
def akeys {α β : Type} (l : List (α × β)) : List α := l.map Prod.fst

/-! ## The cache state -/

/-- The two coupled maps of `ImageDigestCache`: repository name to
(tag name to digest), and digest to the set of (repository, tag) pairs. -/
structure Cache where
  tagDigests : List (String × List (String × Digest))
  digestTags : List (Digest × List (String × String))
deriving DecidableEq, Repr

/-- A fresh cache (`ImageDigestCache.__init__`): both maps empty. -/
def emptyCache : Cache := ⟨[], []⟩

/-- Modeled Python exceptions that cache operations can raise. -/
inductive CacheError where
  | attributeError
  | typeError
  | keyError
deriving DecidableEq, Repr

/-- Membership test `repo in cache` (`ImageDigestCache.__contains__`):
checks the forward map only. -/
def cacheContains (s : Cache) (item : String) : Bool :=
  (alookup s.tagDigests item).isSome

/-- Truthiness of a Python `dict.get` result whose value is a digest:
`None` and empty bytes are falsy. -/
def truthyDigest : Option Digest → Bool
  | none => false
  | some d => !d.isEmpty

/-- Truthiness of a `dict.get` result whose value is a dict. -/
def truthyDict {α β : Type} : Option (List (α × β)) → Bool
  | none => false
  | some m => !m.isEmpty

/-- The binding of `(repo, tag)` in the forward map, if any. -/
def lookupTag (s : Cache) (repo tag : String) : Option Digest :=
  (alookup s.tagDigests repo).bind (fun m => alookup m tag)

/-- The set of pairs recorded for a digest in the reverse map
(empty when the digest is absent). -/
def digestPairs (s : Cache) (d : Digest) : List (String × String) :=
  (alookup s.digestTags d).getD []

/-- Embedding of `ImageDigestCache._discard_digest_tag`: drop `(repo, tag)`
from the digest's reverse entry and delete the entry if it became empty. -/
def discard_digest_tag (s : Cache) (digest : Digest) (repo tag : String) : Cache :=
  match alookup s.digestTags digest with
  | none => s
  | some tags =>
    let tags' := tags.filter (fun rt => rt ≠ (repo, tag))
    if tags'.isEmpty then { s with digestTags := aerase s.digestTags digest }
    else { s with digestTags := ainsert s.digestTags digest tags' }

/-- Embedding of `ImageDigestCache.add_image`: unconditional
`tag_digests[repo][tag] = digest` (through the defaultdict) and
`digest_tags[digest].add((repo, tag))`. -/
def add_image (s : Cache) (repo tag : String) (digest : Digest) : Cache :=
  let m := (alookup s.tagDigests repo).getD []
  let m' := ainsert m tag digest
  let dt := (alookup s.digestTags digest).getD []
  let dt' := if (repo, tag) ∈ dt then dt else dt ++ [(repo, tag)]
  { tagDigests := ainsert s.tagDigests repo m',
    digestTags := ainsert s.digestTags digest dt' }

/-- Embedding of `ImageDigestCache.update_image`.  The source reads
`existing_tags = self._tag_digests.get(repo)`, calls `add_image` when that is
falsy, and then unconditionally evaluates `existing_tags.get(tag)` — an
`AttributeError` when the repository was absent (`existing_tags is None`).
When the repository was bound to an empty dict, `existing_tags` aliases the
dict that `add_image` just updated.  Returns the cache together with the
Python return value (`False` or the implicit `None`). -/
def update_image (s : Cache) (repo tag : String) (digest : Digest) :
    Except CacheError (Cache × Option Bool) :=
  let tail : Cache → List (String × Digest) → Except CacheError (Cache × Option Bool) :=
    fun s1 existing_tags =>
      let existing_digest := alookup existing_tags tag
      if truthyDigest existing_digest then
        match existing_digest with
        | some d0 =>
          if d0 = digest then .ok (s1, some false)
          else
            let s2 := discard_digest_tag s1 d0 repo tag
            let dt := (alookup s2.digestTags digest).getD []
            let dt' := if (repo, tag) ∈ dt then dt else dt ++ [(repo, tag)]
            let s3 := { s2 with digestTags := ainsert s2.digestTags digest dt' }
            let m := (alookup s3.tagDigests repo).getD []
            let s4 := { s3 with tagDigests := ainsert s3.tagDigests repo (ainsert m tag digest) }
            .ok (s4, none)
        | none => .ok (s1, none)
      else .ok (s1, none)
  match alookup s.tagDigests repo with
  | none =>
    -- add_image runs, then `existing_tags.get(tag)` raises AttributeError.
    .error .attributeError
  | some m =>
    if m.isEmpty then
      let s1 := add_image s repo tag digest
      tail s1 ((alookup s1.tagDigests repo).getD [])
    else
      tail s m

/-- Embedding of `ImageDigestCache.remove_tag`. -/
def remove_tag (s : Cache) (repo tag : String) : Cache × Bool :=
  match alookup s.tagDigests repo with
  | none => (s, false)
  | some existing_rd =>
    if existing_rd.isEmpty then (s, false)
    else
      match alookup existing_rd tag with
      | none => (s, false)
      | some existing_digest =>
        if existing_digest.isEmpty then (s, false)
        else
          let s1 := discard_digest_tag s existing_digest repo tag
          let existing_rd' := aerase existing_rd tag
          if existing_rd'.isEmpty then
            ({ s1 with tagDigests := aerase s1.tagDigests repo }, true)
          else
            ({ s1 with tagDigests := ainsert s1.tagDigests repo existing_rd' }, true)

/-- First-occurrence deduplication; the order a CPython `set` built from a
list of distinct insertions iterates in is not otherwise observable here. -/
def firstDedup {α : Type} [DecidableEq α] : List α → List α
  | [] => []
  | x :: xs => x :: (firstDedup xs).filter (fun y => y ≠ x)

/-- The loop body of `remove_repository`: read the digest's reverse entry
(`None` is the source's `TypeError`), drop the pairs of the repository being
removed, and prune the entry when nothing remains. -/
def rr_step (name : String) (dt : List (Digest × List (String × String)))
    (digest : Digest) : Except CacheError (List (Digest × List (String × String))) :=
  match alookup dt digest with
  | none => throw CacheError.typeError
  | some existing_tags =>
    let kept := existing_tags.filter (fun rt => rt.1 ≠ name)
    if kept.isEmpty then pure (aerase dt digest)
    else pure (ainsert dt digest kept)

/-- Embedding of `ImageDigestCache.remove_repository`: for every distinct
digest of the repository, drop the repository's pairs from the reverse entry
(pruning it when empty), then delete the repository. -/
def remove_repository (s : Cache) (name : String) :
    Except CacheError (Cache × Bool) :=
  match alookup s.tagDigests name with
  | none => .ok (s, false)
  | some existing_rd =>
    if existing_rd.isEmpty then .ok (s, false)
    else do
      let existing_digests := firstDedup (existing_rd.map Prod.snd)
      let dt ← existing_digests.foldlM (rr_step name) s.digestTags
      pure ({ tagDigests := aerase s.tagDigests name, digestTags := dt }, true)

/-! ## String ordering (Python's code-point lexicographic comparison) -/

/-- Lexicographic strict order on character lists by code point, the order
Python uses to compare strings. -/
def charsLt : List Char → List Char → Bool
  | [], [] => false
  | [], _ :: _ => true
  | _ :: _, [] => false
  | a :: as, b :: bs =>
    if a.toNat < b.toNat then true
    else if b.toNat < a.toNat then false
    else charsLt as bs

def strLt (a b : String) : Bool := charsLt a.data b.data

def strLe (a b : String) : Bool := strLt a b || a == b

/-- Sort order used by `sorted(...)` on strings. -/
def strLeR (a b : String) : Prop := strLe a b = true

instance : DecidableRel strLeR := fun _ _ => inferInstanceAs (Decidable (_ = true))

/-- Sort order of `sorted(all_tags, key=_get_first)`: by repository name only. -/
def repoLeR (a b : String × String) : Prop := strLe a.1 b.1 = true

instance : DecidableRel repoLeR := fun _ _ => inferInstanceAs (Decidable (_ = true))

/-! ## Grouping (itertools.groupby over a sorted list) -/

/-- Model of `itertools.groupby(l, key=f)`: groups of consecutive elements
with equal key. -/
def pyGroupBy {α κ : Type} [DecidableEq κ] (f : α → κ) : List α → List (κ × List α)
  | [] => []
  | x :: xs =>
    match pyGroupBy f xs with
    | [] => [(f x, [x])]
    | (k, g) :: rest =>
      if f x = k then (f x, x :: g) :: rest else (f x, [x]) :: (k, g) :: rest

/-- One `del repo_digests[rt[1]]` of `remove_digests`: deleting an absent
tag is a `KeyError`. -/
def rd_tag_step (m : List (String × Digest)) (rt : String × String) :
    Except CacheError (List (String × Digest)) :=
  match alookup m rt.2 with
  | none => throw CacheError.keyError
  | some _ => pure (aerase m rt.2)

/-- One repository group of `remove_digests`: look the repository up through
the defaultdict, delete each tag of the group, prune the repository when its
map becomes empty. -/
def rd_repo_step (td : List (String × List (String × Digest)))
    (group : String × List (String × String)) :
    Except CacheError (List (String × List (String × Digest))) := do
  let m' ← group.2.foldlM rd_tag_step ((alookup td group.1).getD [])
  if m'.isEmpty then pure (aerase td group.1)
  else pure (ainsert td group.1 m')

/-- One `del self._digest_tags[digest]` of `remove_digests`. -/
def rd_digest_step (dt : List (Digest × List (String × String))) (d : Digest) :
    Except CacheError (List (Digest × List (String × String))) :=
  match alookup dt d with
  | none => throw CacheError.keyError
  | some _ => pure (aerase dt d)

/-- The read `self._digest_tags.get(digest)` of `remove_digests`: iterating
the result of a failed lookup (`None`) is a `TypeError`. -/
def rd_get_tags (s : Cache) (d : Digest) :
    Except CacheError (List (String × String)) :=
  match alookup s.digestTags d with
  | none => throw CacheError.typeError
  | some ps => pure ps

/-- Embedding of `ImageDigestCache.remove_digests`: collect every pair of
every given digest, group the pairs by repository and delete the tags from
the forward map (pruning repositories that become empty), then delete the
digests' reverse entries. -/
def remove_digests (s : Cache) (digests : List Digest) : Except CacheError Cache := do
  let all_tags ← digests.mapM (rd_get_tags s)
  let sorted_tags := List.insertionSort repoLeR all_tags.flatten
  let td ← (pyGroupBy Prod.fst sorted_tags).foldlM rd_repo_step s.tagDigests
  let dt ← digests.foldlM rd_digest_step s.digestTags
  pure { tagDigests := td, digestTags := dt }

/-- Embedding of `ImageDigestCache.reset`. -/
def reset (_s : Cache) : Cache := emptyCache

/-! ## Read accessors -/

/-- Embedding of `ImageDigestCache.get_digests` without a tag filter:
`set(self._tag_digests.get(repo, {}).values())`. -/
def get_digests (s : Cache) (repo : String) : List Digest :=
  firstDedup (((alookup s.tagDigests repo).getD []).map Prod.snd)

/-- Embedding of `ImageDigestCache.get_tag_digests`. -/
def get_tag_digests (s : Cache) (repo : String) : Option (List (String × Digest)) :=
  alookup s.tagDigests repo

/-- Embedding of `ImageDigestCache.get_digest_repos`:
`set(rt[0] for rt in self._digest_tags.get(digest, []))`. -/
def get_digest_repos (s : Cache) (digest : Digest) : List String :=
  firstDedup (((alookup s.digestTags digest).getD []).map Prod.fst)

/-- Embedding of `ImageDigestCache.get_grouped_tags`:
`groupby(sorted(tags, key=_get_first), _get_first)`. -/
def get_grouped_tags (s : Cache) (digest : Digest) :
    List (String × List (String × String)) :=
  pyGroupBy Prod.fst
    (List.insertionSort repoLeR ((alookup s.digestTags digest).getD []))

/-- Embedding of `ImageDigestCache.get_repo_names`: sorted keys of the
forward map. -/
def get_repo_names (s : Cache) : List String :=
  List.insertionSort strLeR (akeys s.tagDigests)

/-- One step of the filtered `get_tag_names` comprehension: reading
`self._tag_digests[repo]` through the defaultdict appends the repository's
sorted tags for a present repository, and silently inserts an empty entry
for an absent one. -/
def gtn_step (acc : List (String × String) × Cache) (repo : String) :
    List (String × String) × Cache :=
  match alookup acc.2.tagDigests repo with
  | some m =>
    (acc.1 ++ (List.insertionSort strLeR (akeys m)).map (fun t => (repo, t)),
     acc.2)
  | none =>
    (acc.1,
     { acc.2 with tagDigests := acc.2.tagDigests ++ [(repo, [])] })

/-- Embedding of `ImageDigestCache.get_tag_names`.  The filtered branch reads
`self._tag_digests[repo]` through the defaultdict, so an unknown repository
acquires an empty entry: the call returns the listing together with the
possibly-mutated cache.  `if repos:` treats an empty filter like no filter. -/
def get_tag_names (s : Cache) (repos : Option (List String)) :
    List (String × String) × Cache :=
  let unfiltered :=
    (List.insertionSort (fun a b => strLe a.1 b.1 = true) s.tagDigests).flatMap
      (fun p => (List.insertionSort strLeR (akeys p.2)).map (fun t => (p.1, t)))
  match repos with
  | none => (unfiltered, s)
  | some rs =>
    if rs.isEmpty then (unfiltered, s)
    else
      rs.foldl gtn_step ([], s)

/-! ## ContentDigest (digest.py) -/

/-- The two exception kinds `ContentDigest.from_sha256` can raise: the
`ValueError("Found unsupported digest type.")` for a wrong prefix (the
spec's FormatError), and the hex codec's error for malformed hex data. -/
inductive DigestError where
  | formatError
  | hexError
deriving DecidableEq, Repr

def hexDigitChar (n : Nat) : Char :=
  Char.ofNat (if n < 10 then 48 + n else 87 + n)

/-- Lowercase hex encoding of one byte (the hex codec's output format). -/
def byteHex (b : Nat) : List Char := [hexDigitChar (b / 16), hexDigitChar (b % 16)]

def hexVal (c : Char) : Option Nat :=
  if '0' ≤ c ∧ c ≤ '9' then some (c.toNat - 48)
  else if 'a' ≤ c ∧ c ≤ 'f' then some (c.toNat - 87)
  else if 'A' ≤ c ∧ c ≤ 'F' then some (c.toNat - 55)
  else none

/-- Hex decoding (`codecs` hex codec): fails on odd length or a non-hex
character. -/
def hexDecode : List Char → Option (List Nat)
  | [] => some []
  | [_] => none
  | c1 :: c2 :: rest => do
    let h ← hexVal c1
    let l ← hexVal c2
    let bs ← hexDecode rest
    pure ((16 * h + l) :: bs)

/-- Embedding of `ContentDigest.from_sha256`: reject unless the first seven
characters are exactly `sha256:`, then hex-decode the remainder. -/
def from_sha256 (value : String) : Except DigestError Digest :=
  if value.take 7 ≠ "sha256:" then .error .formatError
  else
    match hexDecode (value.drop 7).data with
    | none => .error .hexError
    | some bs => .ok bs

/-- Embedding of `ContentDigest.as_sha256`. -/
def as_sha256 (d : Digest) : String :=
  "sha256:" ++ String.mk (d.flatMap byteHex)

/-! ## Snapshot serialization (cache.py `_serialize` / `_load`) -/

/-- Embedding of `ImageDigestCache._serialize`: the JSON object
`{repo: {tag: "sha256:<hex>"}}`, represented at the structure level. -/
def cache_serialize (s : Cache) : List (String × List (String × String)) :=
  s.tagDigests.map (fun p => (p.1, p.2.map (fun q => (q.1, as_sha256 q.2))))

/-- Embedding of `ImageDigestCache._load`: rebuild the forward map by parsing
every digest string, then re-derive the reverse map from the same structure. -/
def cache_load (tag_digests : List (String × List (String × String))) :
    Except DigestError Cache := do
  let td ← tag_digests.foldlM (fun acc p => do
    let m ← p.2.foldlM (fun m q => do
      let d ← from_sha256 q.2
      pure (ainsert m q.1 d)) []
    pure (ainsert acc p.1 m)) []
  let dt ← tag_digests.foldlM (fun dt p =>
    p.2.foldlM (fun dt q => do
      let d ← from_sha256 q.2
      let pairs := (alookup dt d).getD []
      let pairs' := if (p.1, q.1) ∈ pairs then pairs else pairs ++ [(p.1, q.1)]
      pure (ainsert dt d pairs')) dt) []
  pure { tagDigests := td, digestTags := dt }

/-! ## LooseVersion (distutils), as used by query.py -/

/-- A version component: `distutils.version.LooseVersion` parses a version
string into a list of ints and strings. -/
inductive VTok where
  | num (n : Nat)
  | str (s : String)
deriving DecidableEq, Repr

def isDigitC (c : Char) : Bool := '0' ≤ c && c ≤ '9'

def isLowerC (c : Char) : Bool := 'a' ≤ c && c ≤ 'z'

/-- A character the component pattern does not match (not a digit, not a
lowercase letter, not a dot). -/
def isOtherC (c : Char) : Bool := !(isDigitC c || isLowerC c || c = '.')

def digitsVal (cs : List Char) : Nat :=
  cs.foldl (fun acc c => 10 * acc + (c.toNat - 48)) 0

/-- The character class of a maximal run in LooseVersion's component
pattern: a digit run, a lowercase-letter run, or a run of any other
non-dot text (kept verbatim between matches). -/
inductive RunClass where
  | dig
  | low
  | oth
deriving DecidableEq, Repr

/-- The run class a character belongs to; `none` for the dot, which only
delimits components and is dropped. -/
def classOf (c : Char) : Option RunClass :=
  if isDigitC c then some .dig
  else if isLowerC c then some .low
  else if c = '.' then none
  else some .oth

/-- Turn a finished run (characters accumulated in reverse) into a
component: digit runs become ints, everything else stays a string. -/
def runToToken : RunClass → List Char → VTok
  | .dig, cs => .num (digitsVal cs.reverse)
  | .low, cs => .str (String.mk cs.reverse)
  | .oth, cs => .str (String.mk cs.reverse)

/-- Worker for the tokenizer: walks the characters keeping the pending
run (class and reversed characters); a class change or a dot flushes it. -/
def looseTokensGo : List Char → Option (RunClass × List Char) → List VTok
  | [], none => []
  | [], some (k, run) => [runToToken k run]
  | c :: cs, acc =>
    match classOf c, acc with
    | none, none => looseTokensGo cs none
    | none, some (k, run) => runToToken k run :: looseTokensGo cs none
    | some k, none => looseTokensGo cs (some (k, [c]))
    | some k, some (k', run) =>
      if k = k' then looseTokensGo cs (some (k, c :: run))
      else runToToken k' run :: looseTokensGo cs (some (k, [c]))

/-- LooseVersion's tokenizer: split on runs of digits, runs of lowercase
letters and dots; digit runs become ints, dots are dropped, and any other
text between matches is kept verbatim as a string component. -/
def looseTokens (cs : List Char) : List VTok := looseTokensGo cs none

/-- Python `==` on two components: mixed int/str compares unequal without
raising. -/
def tokEq : VTok → VTok → Bool
  | .num a, .num b => a == b
  | .str a, .str b => a == b
  | _, _ => false

/-- Python `<` on two components: comparing an int with a str raises
`TypeError`. -/
def tokLt : VTok → VTok → Except Unit Bool
  | .num a, .num b => .ok (decide (a < b))
  | .str a, .str b => .ok (strLt a b)
  | _, _ => .error ()

/-- Python list `<`: at the first non-equal pair, the element comparison
decides (or raises); a strict prefix is smaller. -/
def pyListLt : List VTok → List VTok → Except Unit Bool
  | [], [] => .ok false
  | [], _ :: _ => .ok true
  | _ :: _, [] => .ok false
  | a :: as, b :: bs => if tokEq a b then pyListLt as bs else tokLt a b

/-- Embedding of `LooseVersion._cmp`: equality first (never raises), then
`<`, then `>`; if all three fail the Python method returns `None` and the
caller's comparison with `0` raises `TypeError`, modeled as an error. -/
def looseCmp (a b : List VTok) : Except Unit Ordering :=
  if a = b then .ok .eq
  else do
    let lt ← pyListLt a b
    if lt then pure .lt
    else do
      let gt ← pyListLt b a
      if gt then pure .gt else throw ()

/-- The operator literal matched by `VERSION_REGEX`. -/
inductive OpLit where
  | opEq
  | opLt
  | opLe
  | opGt
  | opGe
deriving DecidableEq, Repr

/-- The boolean a comparison selector produces from
`version._cmp(tag)`, per `_get_tag_func`'s method choice: a literal `>`
compiles to `version.__lt__`, `<` to `__gt__`, `>=` to `__le__`,
`<=` to `__ge__` and `==` to `__eq__`. -/
def applyCmp (op : OpLit) (o : Ordering) : Bool :=
  match op with
  | .opEq => o = .eq
  | .opGt => o = .lt
  | .opLt => o = .gt
  | .opGe => o = .lt || o = .eq
  | .opLe => o = .gt || o = .eq

/-- Embedding of `VERSION_REGEX.match`: the pattern
`((?:[<>]=?)|(?:==))(.+)` against the start of the selector.  The version
group takes the rest of the line and must be non-empty; when that fails
after a two-character `<=`/`>=`, the regex backtracks to the one-character
operator. -/
def parseVersionSelector (s : String) : Option (OpLit × String) :=
  let tryTail : OpLit → List Char → Option (OpLit × String) := fun op rest =>
    let v := rest.takeWhile (fun c => c ≠ '\n')
    if v.isEmpty then none else some (op, String.mk v)
  match s.data with
  | '<' :: '=' :: rest => tryTail .opLe rest <|> tryTail .opLt ('=' :: rest)
  | '>' :: '=' :: rest => tryTail .opGe rest <|> tryTail .opGt ('=' :: rest)
  | '<' :: rest => tryTail .opLt rest
  | '>' :: rest => tryTail .opGt rest
  | '=' :: '=' :: rest => tryTail .opEq rest
  | _ => none

/-- A compiled tag selector: a predicate that may raise `TypeError`. -/
abbrev TagFilter := String → Except Unit Bool

/-- Embedding of `_get_tag_func` for string selectors: a version comparison
when the selector matches `VERSION_REGEX`, else exact equality. -/
def getTagFunc (value : String) : TagFilter :=
  match parseVersionSelector value with
  | some (op, vstr) =>
    let v := looseTokens vstr.data
    fun tag => do
      let o ← looseCmp v (looseTokens tag.data)
      pure (applyCmp op o)
  | none => fun tag => .ok (value == tag)

/-- Embedding of `_generate_tag_funcs` for a list of string selectors. -/
def tagFuncs (values : List String) : List TagFilter := values.map getTagFunc

/-- Embedding of `_any_tag_matches`: true when any predicate returns true,
with `TypeError` from an individual predicate swallowed as a non-match. -/
def anyTagMatches (fs : List TagFilter) (tag : String) : Bool :=
  fs.any (fun f => match f tag with | .ok b => b | .error _ => false)

/-! ## Selection engine (query.py) -/

/-- The `IntersectionError` payloads raised by the selection operations:
`select_repositories` passes the set of external repository names,
`select_tags` passes a single foreign repository name or the set of excess
tags; each carries the digest. -/
inductive QueryError where
  | intersectionRepos (conflicting : List String) (digest : Digest)
  | intersectionRepo (conflicting : String) (digest : Digest)
  | intersectionTags (conflicting : List String) (digest : Digest)
deriving DecidableEq, Repr

/-- Embedding of the `_complete_match` closure of `select_repositories`. -/
def sr_complete_match (s : Cache) (name_list : List String) (raiseRepo : Bool)
    (d : Digest) : Except QueryError Bool :=
  let repos := get_digest_repos s d
  let external_names := repos.filter (fun r => r ∉ name_list)
  if external_names.isEmpty then .ok true
  else if raiseRepo then .error (.intersectionRepos external_names d)
  else .ok false

/-- Embedding of `DockerRegistryQuery.select_repositories`: iterate the
requested names in order, each name's digests deduplicated globally
(`tested_digests` is extended before `_complete_match` runs). -/
def select_repositories (s : Cache) (names : List String) (raiseRepo : Bool) :
    Except QueryError (List (String × Digest)) := do
  let r ← names.foldlM (fun acc name =>
    (get_digests s name).foldlM (fun (acc : List Digest × List (String × Digest)) digest =>
      if digest ∈ acc.1 then pure acc
      else do
        let m ← sr_complete_match s names raiseRepo digest
        pure (acc.1 ++ [digest], if m then acc.2 ++ [(name, digest)] else acc.2))
      acc) (([], []) : List Digest × List (String × Digest))
  pure r.2

/-- One step of the `select_repositories` loop, viewed over the flattened
stream of `(name, digest)` pairs the two nested `for` loops produce: skip a
digest already tested, otherwise record it as tested and keep the pair when
`_complete_match` accepts. -/
def sr_step (s : Cache) (names : List String) (raiseRepo : Bool)
    (acc : List Digest × List (String × Digest)) (nd : String × Digest) :
    Except QueryError (List Digest × List (String × Digest)) :=
  if nd.2 ∈ acc.1 then pure acc
  else do
    let m ← sr_complete_match s names raiseRepo nd.2
    pure (acc.1 ++ [nd.2], if m then acc.2 ++ [(nd.1, nd.2)] else acc.2)

/-- The flattened `(name, digest)` stream of the two nested `for` loops of
`select_repositories`: each requested name paired with each of its
digests, in iteration order. -/
def sr_pairs (s : Cache) (names : List String) : List (String × Digest) :=
  names.flatMap (fun n => (get_digests s n).map (fun d => (n, d)))

/-- One iteration sequence of the `_complete_match` closure of
`select_tags`: walk the digest's repository groups; a group whose
repository has no (non-empty) matched tag set is foreign; under
`match_all_tags` a group passes only when its current tags stay inside the
matched set and none is excluded; without `match_all_tags` the first
selected group decides by the exclusion filter alone. -/
def st_check_groups (tag_sets : List (String × List String))
    (excluded : List TagFilter) (matchAll raiseRepo raiseTag : Bool) (d : Digest) :
    List (String × List (String × String)) → Except QueryError Bool
  | [] => .ok true
  | (repo_name, repo_tags) :: rest =>
    match alookup tag_sets repo_name with
    | some tag_set =>
      if tag_set.isEmpty then
        if raiseRepo then .error (.intersectionRepo repo_name d) else .ok false
      else
        let current_tags := firstDedup (repo_tags.map Prod.snd)
        if matchAll then
          let external_tags := current_tags.filter (fun t => t ∉ tag_set)
          if external_tags.isEmpty then
            if current_tags.any (anyTagMatches excluded) then .ok false
            else st_check_groups tag_sets excluded matchAll raiseRepo raiseTag d rest
          else if raiseTag then .error (.intersectionTags external_tags d)
          else .ok false
        else .ok (!current_tags.any (anyTagMatches excluded))
    | none =>
      if raiseRepo then .error (.intersectionRepo repo_name d) else .ok false

/-- Embedding of the `_complete_match` closure of `select_tags`. -/
def st_complete_match (s : Cache) (tag_sets : List (String × List String))
    (excluded : List TagFilter) (matchAll raiseRepo raiseTag : Bool) (d : Digest) :
    Except QueryError Bool :=
  st_check_groups tag_sets excluded matchAll raiseRepo raiseTag d (get_grouped_tags s d)

/-- Lexicographic order on bytes, the order Python gives `bytes`. -/
def bytesLe : List Nat → List Nat → Bool
  | [], _ => true
  | _ :: _, [] => false
  | a :: as, b :: bs =>
    if a < b then true else if b < a then false else bytesLe as bs

/-- The sort order of `_group_digest`: by `(repo, digest)`. -/
def groupKeyLe (a b : String × String × Digest) : Prop :=
  (strLt a.1 b.1 || (a.1 == b.1 && bytesLe a.2.2 b.2.2)) = true

instance : DecidableRel groupKeyLe := fun _ _ => inferInstanceAs (Decidable (_ = true))

/-- Embedding of `select_tags._group_digest`: sort the matched
`(repo, tag, digest)` triples by `(repo, digest)` and merge each group into
`(repo, digest, tags)`. -/
def group_digest (iterable : List (String × String × Digest)) :
    List (String × Digest × List String) :=
  (pyGroupBy (fun x => (x.1, x.2.2)) (List.insertionSort groupKeyLe iterable)).map
    (fun g => (g.1.1, g.1.2, g.2.map (fun x => x.2.1)))

/-- Embedding of `DockerRegistryQuery.select_tags` for already-compiled
selector lists (`included_filter` / `excluded_filter` in the source).
Phase 1 collects, per repository, the tags matching the inclusion filter;
phase 2 groups the matches by `(repo, digest)`, deduplicates globally by
digest (`tested_digests` extended before `_complete_match`) and keeps the
digests whose every repository group clears `_complete_match`. -/
def select_tags (s : Cache) (repos : List String)
    (included excluded : List TagFilter) (matchAll raiseRepo raiseTag : Bool) :
    Except QueryError (List (String × Digest × List String)) := do
  let phase1 := repos.foldl
    (fun (acc : List (String × List String) × List (String × String × Digest)) repo =>
      match get_tag_digests s repo with
      | none => acc
      | some tag_digests =>
        if tag_digests.isEmpty then acc
        else
          let partial_matches := tag_digests.filter (fun td => anyTagMatches included td.1)
          if partial_matches.isEmpty then acc
          else (acc.1 ++ [(repo, partial_matches.map Prod.fst)],
                acc.2 ++ partial_matches.map (fun td => (repo, td.1, td.2))))
    ([], [])
  let r ← (group_digest phase1.2).foldlM
    (fun (acc : List Digest × List (String × Digest × List String)) item =>
      if item.2.1 ∈ acc.1 then pure acc
      else do
        let m ← st_complete_match s phase1.1 excluded matchAll raiseRepo raiseTag item.2.1
        pure (acc.1 ++ [item.2.1], if m then acc.2 ++ [item] else acc.2))
    (([], []) : List Digest × List (String × Digest × List String))
  pure r.2

/-! ## Invariants and operation sequences -/

/-- Representation well-formedness of the Python dicts and sets: unique keys
in each dict, no duplicate pairs in a set. -/
def WF (s : Cache) : Prop :=
  (akeys s.tagDigests).Nodup ∧
  (∀ p ∈ s.tagDigests, (akeys p.2).Nodup) ∧
  (akeys s.digestTags).Nodup ∧
  (∀ q ∈ s.digestTags, q.2.Nodup)

/-- The bidirectional coupling: `(r, t) ∈ digestTags[d]` iff
`tagDigests[r][t] == d`. -/
def Coupled (s : Cache) : Prop :=
  ∀ d r t, (r, t) ∈ digestPairs s d ↔ lookupTag s r t = some d

/-- No empty entries: no repository with an empty tag map, no digest with an
empty pair set. -/
def NoEmpty (s : Cache) : Prop :=
  (∀ p ∈ s.tagDigests, p.2 ≠ []) ∧ (∀ q ∈ s.digestTags, q.2 ≠ [])

/-- The spec's digest-index invariant. -/
def SpecInv (s : Cache) : Prop := Coupled s ∧ NoEmpty s

/-- One mutating call of the digest index. -/
inductive CacheOp where
  | add (repo tag : String) (d : Digest)
  | update (repo tag : String) (d : Digest)
  | removeTag (repo tag : String)
  | removeRepo (name : String)
  | removeDigests (ds : List Digest)

/-- The state transition of one call (the returned value is dropped). -/
def stepOp (s : Cache) : CacheOp → Except CacheError Cache
  | .add repo tag d => .ok (add_image s repo tag d)
  | .update repo tag d => (update_image s repo tag d).map Prod.fst
  | .removeTag repo tag => .ok (remove_tag s repo tag).1
  | .removeRepo name => (remove_repository s name).map Prod.fst
  | .removeDigests ds => remove_digests s ds

/-- `add_image` is called on a pair that is fresh or already carries the same
digest (the overwrite callers are directed to `update_image`). -/
def FreshAdd (s : Cache) : CacheOp → Prop
  | .add repo tag d => lookupTag s repo tag = none ∨ lookupTag s repo tag = some d
  | _ => True

/-- A run of mutating calls, each completing normally, with `add_image` never
silently overwriting a pair bound to a different digest. -/
inductive Steps : Cache → List CacheOp → Cache → Prop
  | nil (s : Cache) : Steps s [] s
  | cons {s s' s'' : Cache} {op : CacheOp} {ops : List CacheOp} :
      stepOp s op = .ok s' → FreshAdd s op → Steps s' ops s'' →
      Steps s (op :: ops) s''

/-! ## Association list lemmas -/

/-! ## Association list lemmas -/

section AListLemmas

variable {α β : Type} [DecidableEq α]

theorem mem_akeys_of_mem {l : List (α × β)} {p : α × β} (h : p ∈ l) :
    p.1 ∈ akeys l := List.mem_map_of_mem Prod.fst h

theorem mem_of_alookup_eq_some {l : List (α × β)} {k : α} {v : β}
    (h : alookup l k = some v) : (k, v) ∈ l := by
  induction l with
  | nil => simp [alookup] at h
  | cons p rest ih =>
    obtain ⟨k', v'⟩ := p
    by_cases hk : k' = k
    · subst hk
      have h' : some v' = some v := by simpa [alookup] using h
      obtain rfl := Option.some.inj h'
      exact List.mem_cons_self _ _
    · simp only [alookup, if_neg hk] at h
      exact List.mem_cons_of_mem _ (ih h)

theorem alookup_eq_some_of_mem {l : List (α × β)} {k : α} {v : β}
    (hnd : (akeys l).Nodup) (h : (k, v) ∈ l) : alookup l k = some v := by
  induction l with
  | nil => simp at h
  | cons p rest ih =>
    obtain ⟨k', v'⟩ := p
    rw [show akeys ((k', v') :: rest) = k' :: akeys rest from rfl,
      List.nodup_cons] at hnd
    rcases List.mem_cons.mp h with heq | hmem
    · cases heq
      simp [alookup]
    · have hne : k' ≠ k := fun he => hnd.1 (he ▸ mem_akeys_of_mem hmem)
      simp only [alookup, if_neg hne]
      exact ih hnd.2 hmem

theorem alookup_eq_none_iff {l : List (α × β)} {k : α} :
    alookup l k = none ↔ k ∉ akeys l := by
  induction l with
  | nil => simp [alookup, akeys]
  | cons p rest ih =>
    obtain ⟨k', v'⟩ := p
    rw [show akeys ((k', v') :: rest) = k' :: akeys rest from rfl]
    by_cases hk : k' = k
    · subst hk
      simp [alookup]
    · simp only [alookup, if_neg hk, List.mem_cons, ih]
      constructor
      · intro hn hor
        rcases hor with h1 | h1
        · exact hk h1.symm
        · exact hn h1
      · intro hn
        exact fun h1 => hn (Or.inr h1)

theorem alookup_ainsert_self (l : List (α × β)) (k : α) (v : β) :
    alookup (ainsert l k v) k = some v := by
  induction l with
  | nil => simp [ainsert, alookup]
  | cons p rest ih =>
    obtain ⟨k', v'⟩ := p
    by_cases hk : k' = k
    · subst hk
      simp [ainsert, alookup]
    · simp only [ainsert, if_neg hk, alookup, if_neg hk]
      exact ih

theorem alookup_ainsert_ne {k k' : α} (l : List (α × β)) (v : β)
    (h : k' ≠ k) : alookup (ainsert l k v) k' = alookup l k' := by
  induction l with
  | nil => simp [ainsert, alookup, Ne.symm h]
  | cons p rest ih =>
    obtain ⟨k0, v0⟩ := p
    by_cases hk : k0 = k
    · subst hk
      have hne : k0 ≠ k' := fun he => h he.symm
      simp [ainsert, alookup, hne]
    · simp only [ainsert, if_neg hk, alookup]
      by_cases hk' : k0 = k'
      · simp [hk']
      · rw [if_neg hk', if_neg hk', ih]

theorem alookup_aerase_self {l : List (α × β)} {k : α}
    (hnd : (akeys l).Nodup) : alookup (aerase l k) k = none := by
  induction l with
  | nil => simp [aerase, alookup]
  | cons p rest ih =>
    obtain ⟨k', v'⟩ := p
    rw [show akeys ((k', v') :: rest) = k' :: akeys rest from rfl,
      List.nodup_cons] at hnd
    by_cases hk : k' = k
    · subst hk
      rw [show aerase ((k', v') :: rest) k' = rest from by simp [aerase]]
      rw [alookup_eq_none_iff]
      exact hnd.1
    · simp only [aerase, if_neg hk, alookup, if_neg hk]
      exact ih hnd.2

theorem alookup_aerase_ne {k k' : α} (l : List (α × β))
    (h : k' ≠ k) : alookup (aerase l k) k' = alookup l k' := by
  induction l with
  | nil => simp [aerase]
  | cons p rest ih =>
    obtain ⟨k0, v0⟩ := p
    by_cases hk : k0 = k
    · subst hk
      have hne : k0 ≠ k' := fun he => h he.symm
      simp [aerase, alookup, hne]
    · simp only [aerase, if_neg hk, alookup]
      by_cases hk' : k0 = k'
      · simp [hk']
      · rw [if_neg hk', if_neg hk', ih]

theorem mem_ainsert {l : List (α × β)} {k : α} {v : β} {p : α × β}
    (h : p ∈ ainsert l k v) : p = (k, v) ∨ p ∈ l := by
  induction l with
  | nil => simpa [ainsert] using h
  | cons q rest ih =>
    obtain ⟨k0, v0⟩ := q
    by_cases hk : k0 = k
    · subst hk
      rcases List.mem_cons.mp (by simpa only [ainsert, if_pos rfl] using h) with h1 | h1
      · exact Or.inl h1
      · exact Or.inr (List.mem_cons_of_mem _ h1)
    · rcases List.mem_cons.mp (by simpa only [ainsert, if_neg hk] using h) with h1 | h1
      · exact Or.inr (by simp [h1])
      · rcases ih h1 with h2 | h2
        · exact Or.inl h2
        · exact Or.inr (List.mem_cons_of_mem _ h2)

theorem mem_akeys_ainsert {l : List (α × β)} {k a : α} {v : β} :
    a ∈ akeys (ainsert l k v) ↔ a ∈ akeys l ∨ a = k := by
  induction l with
  | nil => simp [ainsert, akeys]
  | cons p rest ih =>
    obtain ⟨k', v'⟩ := p
    by_cases hk : k' = k
    · subst hk
      rw [show ainsert ((k', v') :: rest) k' v = (k', v) :: rest from by simp [ainsert]]
      rw [show akeys ((k', v) :: rest) = k' :: akeys rest from rfl,
        show akeys ((k', v') :: rest) = k' :: akeys rest from rfl]
      simp only [List.mem_cons]
      tauto
    · rw [show ainsert ((k', v') :: rest) k v = (k', v') :: ainsert rest k v from by
        simp [ainsert, hk]]
      rw [show akeys ((k', v') :: ainsert rest k v) = k' :: akeys (ainsert rest k v) from rfl,
        show akeys ((k', v') :: rest) = k' :: akeys rest from rfl]
      simp only [List.mem_cons, ih]
      tauto

theorem akeys_ainsert_nodup {l : List (α × β)} {k : α} {v : β}
    (hnd : (akeys l).Nodup) : (akeys (ainsert l k v)).Nodup := by
  induction l with
  | nil => simp [ainsert, akeys]
  | cons p rest ih =>
    obtain ⟨k', v'⟩ := p
    rw [show akeys ((k', v') :: rest) = k' :: akeys rest from rfl,
      List.nodup_cons] at hnd
    by_cases hk : k' = k
    · subst hk
      rw [show ainsert ((k', v') :: rest) k' v = (k', v) :: rest from by simp [ainsert]]
      rw [show akeys ((k', v) :: rest) = k' :: akeys rest from rfl, List.nodup_cons]
      exact hnd
    · rw [show ainsert ((k', v') :: rest) k v = (k', v') :: ainsert rest k v from by
        simp [ainsert, hk]]
      rw [show akeys ((k', v') :: ainsert rest k v) = k' :: akeys (ainsert rest k v) from rfl,
        List.nodup_cons]
      refine ⟨fun hmem => ?_, ih hnd.2⟩
      rcases mem_akeys_ainsert.mp hmem with h1 | h1
      · exact hnd.1 h1
      · exact hk h1

theorem mem_aerase {l : List (α × β)} {k : α} {p : α × β}
    (h : p ∈ aerase l k) : p ∈ l := by
  induction l with
  | nil => simpa [aerase] using h
  | cons q rest ih =>
    obtain ⟨k0, v0⟩ := q
    by_cases hk : k0 = k
    · subst hk
      rw [show aerase ((k0, v0) :: rest) k0 = rest from by simp [aerase]] at h
      exact List.mem_cons_of_mem _ h
    · rcases List.mem_cons.mp (by simpa only [aerase, if_neg hk] using h) with h1 | h1
      · simp [h1]
      · exact List.mem_cons_of_mem _ (ih h1)

theorem akeys_aerase_sublist (l : List (α × β)) (k : α) :
    (akeys (aerase l k)).Sublist (akeys l) := by
  induction l with
  | nil => simp [aerase]
  | cons q rest ih =>
    obtain ⟨k0, v0⟩ := q
    by_cases hk : k0 = k
    · subst hk
      rw [show aerase ((k0, v0) :: rest) k0 = rest from by simp [aerase]]
      rw [show akeys ((k0, v0) :: rest) = k0 :: akeys rest from rfl]
      exact List.sublist_cons_self _ _
    · rw [show aerase ((k0, v0) :: rest) k = (k0, v0) :: aerase rest k from by
        simp [aerase, hk]]
      rw [show akeys ((k0, v0) :: aerase rest k) = k0 :: akeys (aerase rest k) from rfl,
        show akeys ((k0, v0) :: rest) = k0 :: akeys rest from rfl]
      exact List.Sublist.cons₂ _ ih

theorem akeys_aerase_nodup {l : List (α × β)} {k : α}
    (hnd : (akeys l).Nodup) : (akeys (aerase l k)).Nodup :=
  (akeys_aerase_sublist l k).nodup hnd

theorem ainsert_ne_nil (l : List (α × β)) (k : α) (v : β) :
    ainsert l k v ≠ [] := by
  cases l with
  | nil => simp [ainsert]
  | cons p rest =>
    obtain ⟨k', v'⟩ := p
    by_cases hk : k' = k <;> simp [ainsert, hk]

end AListLemmas

theorem mem_firstDedup {α : Type} [DecidableEq α] {l : List α} {x : α} :
    x ∈ firstDedup l ↔ x ∈ l := by
  induction l with
  | nil => simp [firstDedup]
  | cons y ys ih =>
    rw [show firstDedup (y :: ys) = y :: (firstDedup ys).filter (fun z => z ≠ y) from rfl]
    simp only [List.mem_cons, List.mem_filter, ih]
    constructor
    · rintro (h | ⟨h, _⟩)
      · exact Or.inl h
      · exact Or.inr h
    · rintro (h | h)
      · exact Or.inl h
      · by_cases hxy : x = y
        · exact Or.inl hxy
        · exact Or.inr ⟨h, by simpa using hxy⟩

theorem firstDedup_nodup {α : Type} [DecidableEq α] (l : List α) :
    (firstDedup l).Nodup := by
  induction l with
  | nil => simp [firstDedup]
  | cons y ys ih =>
    rw [show firstDedup (y :: ys) = y :: (firstDedup ys).filter (fun z => z ≠ y) from rfl,
      List.nodup_cons]
    refine ⟨fun hmem => ?_, ih.filter _⟩
    have := (List.mem_filter.mp hmem).2
    simp at this

/-! ## State characterization lemmas -/

theorem alookup_getD {α β : Type} [DecidableEq α]
    (o : Option (List (α × β))) (k : α) :
    alookup (o.getD []) k = o.bind (fun m => alookup m k) := by
  cases o <;> simp [alookup]

theorem lookupTag_add_image (s : Cache) (r t : String) (d : Digest) (r' t' : String) :
    lookupTag (add_image s r t d) r' t' =
      if r' = r ∧ t' = t then some d else lookupTag s r' t' := by
  unfold lookupTag add_image
  simp only
  by_cases hr : r' = r
  · subst hr
    rw [alookup_ainsert_self, Option.some_bind]
    by_cases ht : t' = t
    · subst ht
      rw [alookup_ainsert_self, if_pos ⟨rfl, rfl⟩]
    · rw [alookup_ainsert_ne _ _ ht, alookup_getD,
        if_neg (fun hc => ht hc.2)]
  · rw [alookup_ainsert_ne _ _ hr, if_neg (fun hc => hr hc.1)]

theorem digestPairs_add_image (s : Cache) (r t : String) (d : Digest) (d' : Digest) :
    digestPairs (add_image s r t d) d' =
      if d' = d then
        (if (r, t) ∈ digestPairs s d then digestPairs s d
         else digestPairs s d ++ [(r, t)])
      else digestPairs s d' := by
  unfold digestPairs add_image
  simp only
  by_cases hd : d' = d
  · subst hd
    rw [alookup_ainsert_self, if_pos rfl]
    rw [show ((alookup s.digestTags d').getD [] : List (String × String)) =
      digestPairs s d' from rfl]
    by_cases hmem : (r, t) ∈ digestPairs s d' <;> simp [hmem]
  · rw [alookup_ainsert_ne _ _ hd, if_neg hd]

theorem add_image_tagDigests_entries {s : Cache} {r t : String} {d : Digest}
    {p : String × List (String × Digest)} (h : p ∈ (add_image s r t d).tagDigests) :
    p = (r, ainsert ((alookup s.tagDigests r).getD []) t d) ∨ p ∈ s.tagDigests := by
  unfold add_image at h
  simp only at h
  exact mem_ainsert h

theorem add_image_digestTags_entries {s : Cache} {r t : String} {d : Digest}
    {q : Digest × List (String × String)} (h : q ∈ (add_image s r t d).digestTags) :
    q = (d, if (r, t) ∈ digestPairs s d then digestPairs s d
            else digestPairs s d ++ [(r, t)]) ∨ q ∈ s.digestTags := by
  unfold add_image at h
  simp only at h
  rcases mem_ainsert h with h1 | h1
  · exact Or.inl (by rw [h1]; rfl)
  · exact Or.inr h1

theorem add_image_preserves {s : Cache} {r t : String} {d : Digest}
    (hwf : WF s) (hsi : SpecInv s)
    (hfresh : lookupTag s r t = none ∨ lookupTag s r t = some d) :
    WF (add_image s r t d) ∧ SpecInv (add_image s r t d) := by
  obtain ⟨hnd1, hnd2, hnd3, hnd4⟩ := hwf
  obtain ⟨hco, hne1, hne2⟩ := hsi
  refine ⟨⟨?_, ?_, ?_, ?_⟩, ?_, ?_, ?_⟩
  · exact akeys_ainsert_nodup hnd1
  · intro p hp
    rcases add_image_tagDigests_entries hp with h1 | h1
    · subst h1
      refine akeys_ainsert_nodup ?_
      cases hm : alookup s.tagDigests r with
      | none => simp [akeys]
      | some m => simpa using hnd2 _ (mem_of_alookup_eq_some hm)
    · exact hnd2 _ h1
  · exact akeys_ainsert_nodup hnd3
  · intro q hq
    rcases add_image_digestTags_entries hq with h1 | h1
    · subst h1
      by_cases hmem : (r, t) ∈ digestPairs s d
      · simp only [if_pos hmem]
        cases hm : alookup s.digestTags d with
        | none => simp [digestPairs, hm]
        | some ps => simpa [digestPairs, hm] using hnd4 _ (mem_of_alookup_eq_some hm)
      · simp only [if_neg hmem]
        have hbase : (digestPairs s d).Nodup := by
          cases hm : alookup s.digestTags d with
          | none => simp [digestPairs, hm]
          | some ps => simpa [digestPairs, hm] using hnd4 _ (mem_of_alookup_eq_some hm)
        simpa [List.nodup_append] using ⟨hbase, fun hc => hmem hc⟩
    · exact hnd4 _ h1
  · -- Coupled
    intro d' r' t'
    rw [lookupTag_add_image, digestPairs_add_image]
    by_cases hpair : r' = r ∧ t' = t
    · rw [if_pos hpair]
      have hrt : ((r', t') : String × String) = (r, t) := by
        rw [hpair.1, hpair.2]
      by_cases hd : d' = d
      · subst hd
        rw [if_pos rfl]
        constructor
        · intro _
          rfl
        · intro _
          by_cases hmem : (r, t) ∈ digestPairs s d'
          · rw [if_pos hmem, hrt]
            exact hmem
          · rw [if_neg hmem, hrt]
            exact List.mem_append_right _ (List.mem_singleton_self _)
      · rw [if_neg hd]
        constructor
        · intro hmem2
          have hthis := (hco d' r' t').mp hmem2
          rw [hpair.1, hpair.2] at hthis
          rcases hfresh with hf | hf <;> rw [hf] at hthis
          · exact absurd hthis (by simp)
          · exact absurd (Option.some.inj hthis).symm hd
        · intro hsome
          exact absurd (Option.some.inj hsome).symm hd
    · rw [if_neg hpair]
      by_cases hd : d' = d
      · subst hd
        rw [if_pos rfl]
        by_cases hmem : (r, t) ∈ digestPairs s d'
        · rw [if_pos hmem]
          exact hco d' r' t'
        · rw [if_neg hmem]
          constructor
          · intro hmem2
            rcases List.mem_append.mp hmem2 with h1 | h1
            · exact (hco d' r' t').mp h1
            · have hpp : ((r', t') : String × String) = (r, t) :=
                List.mem_singleton.mp h1
              exact absurd ⟨congrArg Prod.fst hpp, congrArg Prod.snd hpp⟩ hpair
          · intro h1
            exact List.mem_append_left _ ((hco d' r' t').mpr h1)
      · rw [if_neg hd]
        exact hco d' r' t'
  · -- NoEmpty forward map
    intro p hp
    rcases add_image_tagDigests_entries hp with h1 | h1
    · subst h1
      simp only
      exact ainsert_ne_nil _ _ _
    · exact hne1 _ h1
  · -- NoEmpty reverse map
    intro q hq
    rcases add_image_digestTags_entries hq with h1 | h1
    · subst h1
      by_cases hmem : (r, t) ∈ digestPairs s d
      · simp only [if_pos hmem]
        exact List.ne_nil_of_mem hmem
      · simp [if_neg hmem]
    · exact hne2 _ h1

theorem discard_tagDigests (s : Cache) (d0 : Digest) (r t : String) :
    (discard_digest_tag s d0 r t).tagDigests = s.tagDigests := by
  unfold discard_digest_tag
  cases alookup s.digestTags d0 with
  | none => rfl
  | some tags =>
    simp only
    split <;> rfl

theorem digestPairs_discard {s : Cache} (hnd3 : (akeys s.digestTags).Nodup)
    (d0 : Digest) (r t : String) (d' : Digest) :
    digestPairs (discard_digest_tag s d0 r t) d' =
      if d' = d0 then (digestPairs s d0).filter (fun rt => rt ≠ (r, t))
      else digestPairs s d' := by
  unfold discard_digest_tag
  cases h : alookup s.digestTags d0 with
  | none =>
    by_cases hd : d' = d0
    · subst hd
      rw [if_pos rfl]
      simp [digestPairs, h]
    · rw [if_neg hd]
  | some tags =>
    simp only
    by_cases he : (tags.filter (fun rt => rt ≠ (r, t))).isEmpty = true
    · rw [if_pos he]
      by_cases hd : d' = d0
      · subst hd
        rw [if_pos rfl]
        show ((alookup (aerase s.digestTags d') d').getD [] : List (String × String)) = _
        rw [alookup_aerase_self hnd3]
        rw [List.isEmpty_iff] at he
        have hdp : digestPairs s d' = tags := by simp [digestPairs, h]
        rw [hdp, he]
        rfl
      · rw [if_neg hd]
        show ((alookup (aerase s.digestTags d0) d').getD [] : List (String × String)) = _
        rw [alookup_aerase_ne _ hd]
        rfl
    · rw [if_neg he]
      by_cases hd : d' = d0
      · subst hd
        rw [if_pos rfl]
        show ((alookup (ainsert s.digestTags d' _) d').getD [] : List (String × String)) = _
        rw [alookup_ainsert_self]
        simp [digestPairs, h]
      · rw [if_neg hd]
        show ((alookup (ainsert s.digestTags d0 _) d').getD [] : List (String × String)) = _
        rw [alookup_ainsert_ne _ _ hd]
        rfl

theorem mem_discard_digestTags {s : Cache} {d0 : Digest} {r t : String}
    {q : Digest × List (String × String)}
    (h : q ∈ (discard_digest_tag s d0 r t).digestTags) :
    (∃ tags, q = (d0, tags.filter (fun rt => rt ≠ (r, t))) ∧
      alookup s.digestTags d0 = some tags) ∨ q ∈ s.digestTags := by
  unfold discard_digest_tag at h
  cases hl : alookup s.digestTags d0 with
  | none =>
    rw [hl] at h
    exact Or.inr h
  | some tags =>
    rw [hl] at h
    simp only at h
    by_cases he : (tags.filter (fun rt => rt ≠ (r, t))).isEmpty = true
    · rw [if_pos he] at h
      exact Or.inr (mem_aerase h)
    · rw [if_neg he] at h
      rcases mem_ainsert h with h1 | h1
      · exact Or.inl ⟨tags, h1, rfl⟩
      · exact Or.inr h1

theorem discard_digestTags_keys_nodup {s : Cache}
    (hnd3 : (akeys s.digestTags).Nodup) (d0 : Digest) (r t : String) :
    (akeys (discard_digest_tag s d0 r t).digestTags).Nodup := by
  unfold discard_digest_tag
  cases alookup s.digestTags d0 with
  | none => exact hnd3
  | some tags =>
    simp only
    split
    · exact akeys_aerase_nodup hnd3
    · exact akeys_ainsert_nodup hnd3

theorem remove_tag_preserves {s : Cache} (hwf : WF s) (hsi : SpecInv s)
    (r t : String) :
    WF (remove_tag s r t).1 ∧ SpecInv (remove_tag s r t).1 := by
  obtain ⟨hnd1, hnd2, hnd3, hnd4⟩ := hwf
  obtain ⟨hco, hne1, hne2⟩ := hsi
  unfold remove_tag
  cases hm : alookup s.tagDigests r with
  | none => exact ⟨⟨hnd1, hnd2, hnd3, hnd4⟩, hco, hne1, hne2⟩
  | some m =>
    simp only
    by_cases hmem : m.isEmpty = true
    · rw [if_pos hmem]
      exact ⟨⟨hnd1, hnd2, hnd3, hnd4⟩, hco, hne1, hne2⟩
    · rw [if_neg hmem]
      cases ht : alookup m t with
      | none => exact ⟨⟨hnd1, hnd2, hnd3, hnd4⟩, hco, hne1, hne2⟩
      | some d0 =>
        simp only
        by_cases hd0e : d0.isEmpty = true
        · rw [if_pos hd0e]
          exact ⟨⟨hnd1, hnd2, hnd3, hnd4⟩, hco, hne1, hne2⟩
        · rw [if_neg hd0e]
          -- the mutating branch
          have hlook : lookupTag s r t = some d0 := by
            unfold lookupTag
            rw [hm, Option.some_bind, ht]
          have hmnd : (akeys m).Nodup := hnd2 _ (mem_of_alookup_eq_some hm)
          have htd1 : (discard_digest_tag s d0 r t).tagDigests = s.tagDigests :=
            discard_tagDigests s d0 r t
          -- lookup characterization of the result forward map
          have hPairs : ∀ d', digestPairs (discard_digest_tag s d0 r t) d' =
              if d' = d0 then (digestPairs s d0).filter (fun rt => rt ≠ (r, t))
              else digestPairs s d' := digestPairs_discard hnd3 d0 r t
          by_cases hrem : (aerase m t).isEmpty = true
          · rw [if_pos hrem]
            have hempty : aerase m t = [] := List.isEmpty_iff.mp hrem
            have hLook : ∀ r' t',
                lookupTag ⟨aerase (discard_digest_tag s d0 r t).tagDigests r,
                  (discard_digest_tag s d0 r t).digestTags⟩ r' t' =
                if r' = r then none else lookupTag s r' t' := by
              intro r' t'
              unfold lookupTag
              simp only [htd1]
              by_cases hr : r' = r
              · subst hr
                rw [alookup_aerase_self hnd1, if_pos rfl, Option.none_bind]
              · rw [alookup_aerase_ne _ hr, if_neg hr]
            have hGone : ∀ t', t' ≠ t → alookup m t' = none := by
              intro t' hne
              have := @alookup_aerase_ne _ _ _ t t' m hne
              rw [hempty] at this
              simpa [alookup] using this.symm
            refine ⟨⟨akeys_aerase_nodup (htd1 ▸ hnd1), ?_, ?_, ?_⟩, ?_, ?_, ?_⟩
            · intro p hp
              exact hnd2 _ (htd1 ▸ mem_aerase hp)
            · exact discard_digestTags_keys_nodup hnd3 d0 r t
            · intro q hq
              rcases mem_discard_digestTags hq with ⟨tags, rfl, hl⟩ | h1
              · exact (hnd4 _ (mem_of_alookup_eq_some hl)).filter _
              · exact hnd4 _ h1
            · -- Coupled
              intro d' r' t'
              rw [show digestPairs ⟨aerase (discard_digest_tag s d0 r t).tagDigests r,
                    (discard_digest_tag s d0 r t).digestTags⟩ d' =
                  digestPairs (discard_digest_tag s d0 r t) d' from rfl,
                hPairs d', hLook r' t']
              by_cases hd : d' = d0
              · subst hd
                rw [if_pos rfl]
                rw [List.mem_filter]
                by_cases hr : r' = r
                · subst hr
                  rw [if_pos rfl]
                  constructor
                  · rintro ⟨hpm, hne⟩
                    have hl2 := (hco d' r' t').mp hpm
                    by_cases htt : t' = t
                    · subst htt
                      simp at hne
                    · unfold lookupTag at hl2
                      rw [hm, Option.some_bind, hGone t' htt] at hl2
                      exact absurd hl2 (by simp)
                  · intro h
                    exact absurd h (by simp)
                · rw [if_neg hr]
                  constructor
                  · rintro ⟨hpm, _⟩
                    exact (hco d' r' t').mp hpm
                  · intro h
                    refine ⟨(hco d' r' t').mpr h, ?_⟩
                    simp [hr]
              · rw [if_neg hd]
                by_cases hr : r' = r
                · subst hr
                  rw [if_pos rfl]
                  constructor
                  · intro hpm
                    have hl2 := (hco d' r' t').mp hpm
                    by_cases htt : t' = t
                    · subst htt
                      rw [hlook] at hl2
                      exact absurd (Option.some.inj hl2) (fun he => hd he.symm)
                    · unfold lookupTag at hl2
                      rw [hm, Option.some_bind, hGone t' htt] at hl2
                      exact absurd hl2 (by simp)
                  · intro h
                    exact absurd h (by simp)
                · rw [if_neg hr]
                  exact hco d' r' t'
            · -- NoEmpty forward
              intro p hp
              exact hne1 _ (htd1 ▸ mem_aerase hp)
            · -- NoEmpty reverse
              intro q hq
              rcases mem_discard_digestTags hq with ⟨tags, rfl, hl⟩ | h1
              · -- entry only kept when the filter was non-empty
                intro hc
                have := hq
                unfold discard_digest_tag at this
                rw [hl] at this
                simp only at this
                by_cases he : (tags.filter (fun rt => rt ≠ (r, t))).isEmpty = true
                · rw [if_pos he] at this
                  -- then (d0, []) would be an entry of aerase: old entry with [] value
                  have hmem2 := mem_aerase this
                  exact hne2 _ hmem2 (by simpa using hc)
                · have hc' : List.filter (fun rt => decide (rt ≠ (r, t))) tags = [] := hc
                  exact he (by rw [List.isEmpty_iff]; exact hc')
              · exact hne2 _ h1
          · rw [if_neg hrem]
            have hLook : ∀ r' t',
                lookupTag ⟨ainsert (discard_digest_tag s d0 r t).tagDigests r (aerase m t),
                  (discard_digest_tag s d0 r t).digestTags⟩ r' t' =
                if r' = r ∧ t' = t then none else lookupTag s r' t' := by
              intro r' t'
              unfold lookupTag
              simp only [htd1]
              by_cases hr : r' = r
              · subst hr
                rw [alookup_ainsert_self, Option.some_bind]
                by_cases htt : t' = t
                · subst htt
                  rw [alookup_aerase_self hmnd, if_pos ⟨rfl, rfl⟩]
                · rw [alookup_aerase_ne _ htt, if_neg (fun hc => htt hc.2), hm,
                    Option.some_bind]

              · rw [alookup_ainsert_ne _ _ hr, if_neg (fun hc => hr hc.1)]
            refine ⟨⟨akeys_ainsert_nodup (htd1 ▸ hnd1), ?_, ?_, ?_⟩, ?_, ?_, ?_⟩
            · intro p hp
              rcases mem_ainsert hp with rfl | h1
              · exact akeys_aerase_nodup hmnd
              · exact hnd2 _ (htd1 ▸ h1)
            · exact discard_digestTags_keys_nodup hnd3 d0 r t
            · intro q hq
              rcases mem_discard_digestTags hq with ⟨tags, rfl, hl⟩ | h1
              · exact (hnd4 _ (mem_of_alookup_eq_some hl)).filter _
              · exact hnd4 _ h1
            · -- Coupled
              intro d' r' t'
              rw [show digestPairs ⟨ainsert (discard_digest_tag s d0 r t).tagDigests r
                    (aerase m t), (discard_digest_tag s d0 r t).digestTags⟩ d' =
                  digestPairs (discard_digest_tag s d0 r t) d' from rfl,
                hPairs d', hLook r' t']
              by_cases hd : d' = d0
              · subst hd
                rw [if_pos rfl, List.mem_filter]
                by_cases hpair : r' = r ∧ t' = t
                · rw [if_pos hpair]
                  constructor
                  · rintro ⟨_, hne⟩
                    rw [hpair.1, hpair.2] at hne
                    simp at hne
                  · intro h
                    exact absurd h (by simp)
                · rw [if_neg hpair]
                  constructor
                  · rintro ⟨hpm, _⟩
                    exact (hco d' r' t').mp hpm
                  · intro h
                    refine ⟨(hco d' r' t').mpr h, ?_⟩
                    simp [hpair]
              · rw [if_neg hd]
                by_cases hpair : r' = r ∧ t' = t
                · rw [if_pos hpair]
                  constructor
                  · intro hpm
                    have hl2 := (hco d' r' t').mp hpm
                    rw [hpair.1, hpair.2, hlook] at hl2
                    exact absurd (Option.some.inj hl2) (fun he => hd he.symm)
                  · intro h
                    exact absurd h (by simp)
                · rw [if_neg hpair]
                  exact hco d' r' t'
            · -- NoEmpty forward
              intro p hp
              rcases mem_ainsert hp with rfl | h1
              · simpa [List.isEmpty_iff] using hrem
              · exact hne1 _ (htd1 ▸ h1)
            · -- NoEmpty reverse
              intro q hq
              rcases mem_discard_digestTags hq with ⟨tags, rfl, hl⟩ | h1
              · intro hc
                have hq2 := hq
                unfold discard_digest_tag at hq2
                rw [hl] at hq2
                simp only at hq2
                by_cases he : (tags.filter (fun rt => rt ≠ (r, t))).isEmpty = true
                · rw [if_pos he] at hq2
                  exact hne2 _ (mem_aerase hq2) (by simpa using hc)
                · have hc' : List.filter (fun rt => decide (rt ≠ (r, t))) tags = [] := hc
                  exact he (by rw [List.isEmpty_iff]; exact hc')
              · exact hne2 _ h1

theorem update_image_preserves {s : Cache} {r t : String} {d : Digest}
    {s' : Cache} {ret : Option Bool}
    (hwf : WF s) (hsi : SpecInv s)
    (hok : update_image s r t d = .ok (s', ret)) :
    WF s' ∧ SpecInv s' := by
  obtain ⟨hnd1, hnd2, hnd3, hnd4⟩ := hwf
  obtain ⟨hco, hne1, hne2⟩ := hsi
  unfold update_image at hok
  cases hm : alookup s.tagDigests r with
  | none => rw [hm] at hok; exact absurd hok (by simp)
  | some m =>
    rw [hm] at hok
    simp only at hok
    have hmne : m ≠ [] := hne1 _ (mem_of_alookup_eq_some hm)
    rw [if_neg (by simpa [List.isEmpty_iff] using hmne)] at hok
    cases ht : alookup m t with
    | none =>
      rw [ht] at hok
      simp only [truthyDigest, Bool.false_eq_true, if_false] at hok
      obtain ⟨rfl, rfl⟩ : s = s' ∧ (none : Option Bool) = ret := by
        have := Except.ok.inj hok
        exact ⟨congrArg Prod.fst this, congrArg Prod.snd this⟩
      exact ⟨⟨hnd1, hnd2, hnd3, hnd4⟩, hco, hne1, hne2⟩
    | some d0 =>
      rw [ht] at hok
      by_cases hd0e : d0.isEmpty = true
      · simp only [truthyDigest, hd0e, Bool.not_true, Bool.false_eq_true, if_false] at hok
        obtain ⟨rfl, rfl⟩ : s = s' ∧ (none : Option Bool) = ret := by
          have := Except.ok.inj hok
          exact ⟨congrArg Prod.fst this, congrArg Prod.snd this⟩
        exact ⟨⟨hnd1, hnd2, hnd3, hnd4⟩, hco, hne1, hne2⟩
      · simp only [truthyDigest, hd0e, Bool.not_false, if_true] at hok
        by_cases hdd : d0 = d
        · rw [if_pos hdd] at hok
          obtain ⟨rfl, rfl⟩ : s = s' ∧ (some false : Option Bool) = ret := by
            have := Except.ok.inj hok
            exact ⟨congrArg Prod.fst this, congrArg Prod.snd this⟩
          exact ⟨⟨hnd1, hnd2, hnd3, hnd4⟩, hco, hne1, hne2⟩
        · rw [if_neg hdd] at hok
          -- the mutating path
          have hlook : lookupTag s r t = some d0 := by
            unfold lookupTag
            rw [hm, Option.some_bind, ht]
          have hmnd : (akeys m).Nodup := hnd2 _ (mem_of_alookup_eq_some hm)
          have htd1 : (discard_digest_tag s d0 r t).tagDigests = s.tagDigests :=
            discard_tagDigests s d0 r t
          have hPairs : ∀ d', digestPairs (discard_digest_tag s d0 r t) d' =
              if d' = d0 then (digestPairs s d0).filter (fun rt => rt ≠ (r, t))
              else digestPairs s d' := digestPairs_discard hnd3 d0 r t
          have hrtNotIn : (r, t) ∉ digestPairs s d := by
            intro hmem
            have := (hco d r t).mp hmem
            rw [hlook] at this
            exact hdd (Option.some.inj this)
          have hndDiscard : (akeys (discard_digest_tag s d0 r t).digestTags).Nodup :=
            discard_digestTags_keys_nodup hnd3 d0 r t
          -- the state that update_image builds
          obtain ⟨hs', hret⟩ : _ = s' ∧ (none : Option Bool) = ret := by
            have := Except.ok.inj hok
            exact ⟨congrArg Prod.fst this, congrArg Prod.snd this⟩
          subst hs'
          have hdtD : ((alookup (discard_digest_tag s d0 r t).digestTags d).getD [] :
              List (String × String)) = digestPairs s d := by
            show digestPairs (discard_digest_tag s d0 r t) d = _
            rw [hPairs d, if_neg (fun he => hdd he.symm)]
          have hrtn : (r, t) ∉ ((alookup (discard_digest_tag s d0 r t).digestTags d).getD
              [] : List (String × String)) := by
            rw [hdtD]
            exact hrtNotIn
          have hm3 : ((alookup (discard_digest_tag s d0 r t).tagDigests r).getD [] :
              List (String × Digest)) = m := by
            rw [htd1, hm]
            rfl
          dsimp only
          rw [if_neg hrtn, hm3]
          -- now prove the goal for the explicit state
          have hLook : ∀ r' t',
              lookupTag ⟨ainsert (discard_digest_tag s d0 r t).tagDigests r (ainsert m t d),
                ainsert (discard_digest_tag s d0 r t).digestTags d ((alookup (discard_digest_tag s d0 r t).digestTags d).getD [] ++ [(r, t)])⟩
                r' t' =
              if r' = r ∧ t' = t then some d else lookupTag s r' t' := by
            intro r' t'
            unfold lookupTag
            simp only [htd1]
            by_cases hr : r' = r
            · subst hr
              rw [alookup_ainsert_self, Option.some_bind]
              by_cases htt : t' = t
              · subst htt
                rw [alookup_ainsert_self, if_pos ⟨rfl, rfl⟩]
              · rw [alookup_ainsert_ne _ _ htt, if_neg (fun hc => htt hc.2), hm,
                  Option.some_bind]
            · rw [alookup_ainsert_ne _ _ hr, if_neg (fun hc => hr hc.1)]
          have hPairs2 : ∀ d',
              digestPairs ⟨ainsert (discard_digest_tag s d0 r t).tagDigests r (ainsert m t d),
                ainsert (discard_digest_tag s d0 r t).digestTags d ((alookup (discard_digest_tag s d0 r t).digestTags d).getD [] ++ [(r, t)])⟩
                d' =
              if d' = d then digestPairs s d ++ [(r, t)]
              else if d' = d0 then (digestPairs s d0).filter (fun rt => rt ≠ (r, t))
              else digestPairs s d' := by
            intro d'
            show ((alookup (ainsert (discard_digest_tag s d0 r t).digestTags d _) d').getD [] :
              List (String × String)) = _
            by_cases hd : d' = d
            · subst hd
              rw [alookup_ainsert_self, if_pos rfl]
              simp only [Option.getD_some]
              rw [hdtD]
            · rw [alookup_ainsert_ne _ _ hd, if_neg hd]
              have := hPairs d'
              exact this
          refine ⟨⟨akeys_ainsert_nodup (htd1 ▸ hnd1), ?_, ?_, ?_⟩, ?_, ?_, ?_⟩
          · intro p hp
            rcases mem_ainsert hp with rfl | h1
            · exact akeys_ainsert_nodup hmnd
            · exact hnd2 _ (htd1 ▸ h1)
          · exact akeys_ainsert_nodup hndDiscard
          · intro q hq
            rcases mem_ainsert hq with rfl | h1
            · simp only
              rw [hdtD]
              have hbase : (digestPairs s d).Nodup := by
                cases hmm : alookup s.digestTags d with
                | none => simp [digestPairs, hmm]
                | some ps =>
                  have hps := hnd4 _ (mem_of_alookup_eq_some hmm)
                  simpa [digestPairs, hmm] using hps
              simpa [List.nodup_append] using ⟨hbase, fun hc => hrtNotIn hc⟩
            · rcases mem_discard_digestTags h1 with ⟨tags, rfl, hl⟩ | h2
              · exact (hnd4 _ (mem_of_alookup_eq_some hl)).filter _
              · exact hnd4 _ h2
          · -- Coupled
            intro d' r' t'
            rw [show digestPairs ⟨ainsert (discard_digest_tag s d0 r t).tagDigests r (ainsert m t d),
                  ainsert (discard_digest_tag s d0 r t).digestTags d ((alookup (discard_digest_tag s d0 r t).digestTags d).getD [] ++ [(r, t)])⟩
                  d' = _ from hPairs2 d', hLook r' t']
            by_cases hpair : r' = r ∧ t' = t
            · rw [if_pos hpair]
              have hrt : ((r', t') : String × String) = (r, t) := by
                rw [hpair.1, hpair.2]
              by_cases hd : d' = d
              · subst hd
                rw [if_pos rfl, hrt]
                constructor
                · intro _
                  rfl
                · intro _
                  exact List.mem_append_right _ (List.mem_singleton_self _)
              · rw [if_neg hd]
                by_cases hd0 : d' = d0
                · subst hd0
                  rw [if_pos rfl, List.mem_filter, hrt]
                  constructor
                  · rintro ⟨_, hne⟩
                    simp at hne
                  · intro h
                    exact absurd (Option.some.inj h).symm hd
                · rw [if_neg hd0]
                  constructor
                  · intro hmem
                    have := (hco d' r' t').mp hmem
                    rw [hpair.1, hpair.2, hlook] at this
                    exact absurd (Option.some.inj this).symm hd0
                  · intro h
                    exact absurd (Option.some.inj h).symm hd
            · rw [if_neg hpair]
              have hner : ((r', t') : String × String) ≠ (r, t) := fun hpp =>
                hpair ⟨congrArg Prod.fst hpp, congrArg Prod.snd hpp⟩
              by_cases hd : d' = d
              · subst hd
                rw [if_pos rfl]
                constructor
                · intro hmem
                  rcases List.mem_append.mp hmem with h1 | h1
                  · exact (hco d' r' t').mp h1
                  · exact absurd (List.mem_singleton.mp h1) hner
                · intro h1
                  exact List.mem_append_left _ ((hco d' r' t').mpr h1)
              · rw [if_neg hd]
                by_cases hd0 : d' = d0
                · subst hd0
                  rw [if_pos rfl, List.mem_filter]
                  constructor
                  · rintro ⟨hpm, _⟩
                    exact (hco d' r' t').mp hpm
                  · intro h
                    refine ⟨(hco d' r' t').mpr h, ?_⟩
                    simp [hner]
                · rw [if_neg hd0]
                  exact hco d' r' t'
          · -- NoEmpty forward
            intro p hp
            rcases mem_ainsert hp with rfl | h1
            · exact ainsert_ne_nil _ _ _
            · exact hne1 _ (htd1 ▸ h1)
          · -- NoEmpty reverse
            intro q hq
            rcases mem_ainsert hq with rfl | h1
            · simp
            · rcases mem_discard_digestTags h1 with ⟨tags, rfl, hl⟩ | h2
              · intro hc
                have hq2 := h1
                unfold discard_digest_tag at hq2
                rw [hl] at hq2
                simp only at hq2
                by_cases he : (tags.filter (fun rt => rt ≠ (r, t))).isEmpty = true
                · rw [if_pos he] at hq2
                  exact hne2 _ (mem_aerase hq2) (by simpa using hc)
                · have hc' : List.filter (fun rt => decide (rt ≠ (r, t))) tags = [] := hc
                  exact he (by rw [List.isEmpty_iff]; exact hc')
              · exact hne2 _ h2

/-- Characterization of the reverse-map fold of `remove_repository`. -/
theorem rr_fold_spec (name : String) :
    ∀ (ds : List Digest) (dt dt' : List (Digest × List (String × String))),
    (akeys dt).Nodup → ds.Nodup →
    ds.foldlM (rr_step name) dt = .ok dt' →
    (akeys dt').Nodup ∧
    (∀ d', d' ∉ ds → alookup dt' d' = alookup dt d') ∧
    (∀ d' ∈ ds, alookup dt' d' = (alookup dt d').bind (fun tags =>
      let kept := tags.filter (fun rt => rt.1 ≠ name)
      if kept.isEmpty then none else some kept)) ∧
    (∀ q ∈ dt', (∃ tags, q.2 = tags.filter (fun rt => rt.1 ≠ name) ∧
      (q.1, tags) ∈ dt) ∨ q ∈ dt) := by
  intro ds
  induction ds with
  | nil =>
    intro dt dt' hnd _ hfold
    simp only [List.foldlM_nil, pure, Except.pure] at hfold
    obtain rfl := Except.ok.inj hfold
    exact ⟨hnd, fun _ _ => rfl, fun d' hd' => absurd hd' (List.not_mem_nil d'),
      fun q hq => Or.inr hq⟩
  | cons d ds ih =>
    intro dt dt' hnd hds hfold
    rw [List.nodup_cons] at hds
    rw [List.foldlM_cons] at hfold
    unfold rr_step at hfold
    cases hl : alookup dt d with
    | none =>
      rw [hl] at hfold
      simp only [throw, throwThe, MonadExceptOf.throw, Bind.bind, Except.bind] at hfold
      exact Except.noConfusion hfold
    | some tags =>
      rw [hl] at hfold
      simp only at hfold
      by_cases he : (tags.filter (fun rt => rt.1 ≠ name)).isEmpty = true
      · rw [if_pos he, pure_bind] at hfold
        obtain ⟨hnd', hC2, hC3, hC4⟩ := ih (aerase dt d) dt' (akeys_aerase_nodup hnd)
          hds.2 hfold
        refine ⟨hnd', ?_, ?_, ?_⟩
        · intro d' hd'
          have hne : d' ∉ ds := fun hc => hd' (List.mem_cons_of_mem _ hc)
          have hned : d' ≠ d := fun hc => hd' (hc ▸ List.mem_cons_self _ _)
          rw [hC2 d' hne, alookup_aerase_ne _ hned]
        · intro d' hd'
          rcases List.mem_cons.mp hd' with rfl | hmem
          · rw [hC2 d' hds.1, alookup_aerase_self hnd, hl]
            rw [List.isEmpty_iff] at he
            simp only [Option.some_bind]
            split
            · rfl
            · rename_i hne2
              exact absurd (by rw [List.isEmpty_iff]; simpa using he) hne2
          · have hned : d' ≠ d := fun hc => hds.1 (hc ▸ hmem)
            rw [hC3 d' hmem, alookup_aerase_ne _ hned]
        · intro q hq
          rcases hC4 q hq with ⟨tags2, hq2, hmem2⟩ | hq2
          · exact Or.inl ⟨tags2, hq2, mem_aerase hmem2⟩
          · exact Or.inr (mem_aerase hq2)
      · rw [if_neg he, pure_bind] at hfold
        obtain ⟨hnd', hC2, hC3, hC4⟩ := ih _ dt' (akeys_ainsert_nodup hnd) hds.2 hfold
        refine ⟨hnd', ?_, ?_, ?_⟩
        · intro d' hd'
          have hne : d' ∉ ds := fun hc => hd' (List.mem_cons_of_mem _ hc)
          have hned : d' ≠ d := fun hc => hd' (hc ▸ List.mem_cons_self _ _)
          rw [hC2 d' hne, alookup_ainsert_ne _ _ hned]
        · intro d' hd'
          rcases List.mem_cons.mp hd' with rfl | hmem
          · rw [hC2 d' hds.1, alookup_ainsert_self, hl]
            simp only [Option.some_bind]
            split
            · rename_i htrue
              rw [List.isEmpty_iff] at htrue
              exact absurd (by rw [List.isEmpty_iff]; simpa using htrue) he
            · rfl
          · have hned : d' ≠ d := fun hc => hds.1 (hc ▸ hmem)
            rw [hC3 d' hmem, alookup_ainsert_ne _ _ hned]
        · intro q hq
          rcases hC4 q hq with ⟨tags2, hq2, hmem2⟩ | hq2
          · rcases mem_ainsert hmem2 with heq | hmem3
            · refine Or.inl ⟨tags, ?_, ?_⟩
              · have h2 : tags2 = tags.filter (fun rt => rt.1 ≠ name) := by
                  have := congrArg Prod.snd heq
                  simpa using this
                rw [hq2, h2]
                simp [List.filter_filter]
              · have hq1 : q.1 = d := congrArg Prod.fst heq
                rw [hq1]
                exact mem_of_alookup_eq_some hl
            · exact Or.inl ⟨tags2, hq2, hmem3⟩
          · rcases mem_ainsert hq2 with heq | hmem3
            · refine Or.inl ⟨tags, ?_, ?_⟩
              · have := congrArg Prod.snd heq
                simpa using this
              · have hq1 : q.1 = d := congrArg Prod.fst heq
                rw [hq1]
                exact mem_of_alookup_eq_some hl
            · exact Or.inr hmem3
theorem remove_repository_preserves {s s' : Cache} {name : String} {b : Bool}
    (hwf : WF s) (hsi : SpecInv s)
    (hok : remove_repository s name = .ok (s', b)) :
    WF s' ∧ SpecInv s' := by
  obtain ⟨hnd1, hnd2, hnd3, hnd4⟩ := hwf
  obtain ⟨hco, hne1, hne2⟩ := hsi
  unfold remove_repository at hok
  cases hm : alookup s.tagDigests name with
  | none =>
    rw [hm] at hok
    obtain ⟨rfl, rfl⟩ : s = s' ∧ false = b := by
      have := Except.ok.inj hok
      exact ⟨congrArg Prod.fst this, congrArg Prod.snd this⟩
    exact ⟨⟨hnd1, hnd2, hnd3, hnd4⟩, hco, hne1, hne2⟩
  | some m =>
    rw [hm] at hok
    simp only at hok
    have hmne : m ≠ [] := hne1 _ (mem_of_alookup_eq_some hm)
    rw [if_neg (by simpa [List.isEmpty_iff] using hmne)] at hok
    -- the fold either fails or yields the new reverse map
    cases hfold : (firstDedup (m.map Prod.snd)).foldlM (rr_step name) s.digestTags with
    | error e =>
      rw [hfold] at hok
      exact absurd hok (by simp [Bind.bind, Except.bind])
    | ok dt' =>
      rw [hfold] at hok
      simp only [Bind.bind, Except.bind] at hok
      obtain ⟨hs', hb⟩ : (⟨aerase s.tagDigests name, dt'⟩ : Cache) = s' ∧ b = true := by
        simpa [pure, Except.pure, Except.bind] using hok
      subst hs'
      obtain ⟨hnd', hC2, hC3, hC4⟩ := rr_fold_spec name _ _ _ hnd3
        (firstDedup_nodup _) hfold
      have hdsmem : ∀ d', d' ∈ firstDedup (m.map Prod.snd) ↔ d' ∈ m.map Prod.snd :=
        fun d' => mem_firstDedup
      have hPairs : ∀ d', digestPairs ⟨aerase s.tagDigests name, dt'⟩ d' =
          if d' ∈ firstDedup (m.map Prod.snd) then
            (digestPairs s d').filter (fun rt => rt.1 ≠ name)
          else digestPairs s d' := by
        intro d'
        show ((alookup dt' d').getD [] : List (String × String)) = _
        by_cases hmem : d' ∈ firstDedup (m.map Prod.snd)
        · rw [if_pos hmem, hC3 d' hmem]
          cases hl : alookup s.digestTags d' with
          | none => simp [digestPairs, hl]
          | some tags =>
            simp only [Option.some_bind, digestPairs, hl, Option.getD_some]
            by_cases he : (tags.filter (fun rt => rt.1 ≠ name)).isEmpty = true
            · rw [if_pos he]
              simp only [Option.getD_none]
              symm
              rw [← List.isEmpty_iff]
              simpa using he
            · rw [if_neg he]
              rfl
        · rw [if_neg hmem, hC2 d' hmem]
          rfl
      have hLook : ∀ r' t', lookupTag ⟨aerase s.tagDigests name, dt'⟩ r' t' =
          if r' = name then none else lookupTag s r' t' := by
        intro r' t'
        unfold lookupTag
        by_cases hr : r' = name
        · subst hr
          rw [alookup_aerase_self hnd1, if_pos rfl, Option.none_bind]
        · rw [alookup_aerase_ne _ hr, if_neg hr]
      refine ⟨⟨akeys_aerase_nodup hnd1, ?_, hnd', ?_⟩, ?_, ?_, ?_⟩
      · intro p hp
        exact hnd2 _ (mem_aerase hp)
      · intro q hq
        rcases hC4 q hq with ⟨tags, hq2, hmem2⟩ | hq2
        · rw [hq2]
          exact (hnd4 _ hmem2).filter _
        · exact hnd4 _ hq2
      · -- Coupled
        intro d' r' t'
        rw [hPairs d', hLook r' t']
        by_cases hr : r' = name
        · subst hr
          rw [if_pos rfl]
          by_cases hmem : d' ∈ firstDedup (m.map Prod.snd)
          · rw [if_pos hmem, List.mem_filter]
            constructor
            · rintro ⟨_, hne⟩
              simp at hne
            · intro h
              exact absurd h (by simp)
          · rw [if_neg hmem]
            constructor
            · intro hpm
              have hl2 := (hco d' r' t').mp hpm
              unfold lookupTag at hl2
              rw [hm, Option.some_bind] at hl2
              have hmm2 : d' ∈ m.map Prod.snd :=
                List.mem_map.mpr ⟨(t', d'), mem_of_alookup_eq_some hl2, rfl⟩
              exact absurd ((hdsmem d').mpr hmm2) hmem
            · intro h
              exact absurd h (by simp)
        · rw [if_neg hr]
          by_cases hmem : d' ∈ firstDedup (m.map Prod.snd)
          · rw [if_pos hmem, List.mem_filter]
            constructor
            · rintro ⟨hpm, _⟩
              exact (hco d' r' t').mp hpm
            · intro h
              refine ⟨(hco d' r' t').mpr h, by simpa using hr⟩
          · rw [if_neg hmem]
            exact hco d' r' t'
      · -- NoEmpty forward
        intro p hp
        exact hne1 _ (mem_aerase hp)
      · -- NoEmpty reverse
        intro q hq
        rcases hC4 q hq with ⟨tags, hq2, hmem2⟩ | hq2
        · -- a filtered entry is only present when its digest was processed
          -- with a non-empty remainder, or untouched; show directly via lookups
          intro hc
          have hqmem : alookup dt' q.1 = some q.2 := alookup_eq_some_of_mem hnd' hq
          by_cases hmem : q.1 ∈ firstDedup (m.map Prod.snd)
          · rw [hC3 q.1 hmem] at hqmem
            cases hl : alookup s.digestTags q.1 with
            | none => rw [hl] at hqmem; exact absurd hqmem (by simp)
            | some tags2 =>
              rw [hl, Option.some_bind] at hqmem
              by_cases he : (tags2.filter (fun rt => rt.1 ≠ name)).isEmpty = true
              · rw [if_pos he] at hqmem
                exact absurd hqmem (by simp)
              · rw [if_neg he] at hqmem
                have := Option.some.inj hqmem
                rw [← this] at hc
                exact he (by rw [List.isEmpty_iff]; exact hc)
          · rw [hC2 q.1 hmem] at hqmem
            exact hne2 _ (mem_of_alookup_eq_some hqmem) hc
        · exact hne2 _ hq2

/-! ## String-order and grouping lemmas -/

theorem charToNat_inj {a b : Char} (h : a.toNat = b.toNat) : a = b :=
  Char.ext (UInt32.ext h)

theorem charsLt_irrefl : ∀ (a : List Char), charsLt a a = false := by
  intro a
  induction a with
  | nil => rfl
  | cons x xs ih => simp [charsLt, ih]

theorem charsLt_trans (a : List Char) : ∀ (b c : List Char),
    charsLt a b = true → charsLt b c = true → charsLt a c = true := by
  induction a with
  | nil =>
    intro b c hab hbc
    cases b with
    | nil => simp [charsLt] at hab
    | cons y ys =>
      cases c with
      | nil => simp [charsLt] at hbc
      | cons z zs => simp [charsLt]
  | cons x xs ih =>
    intro b c hab hbc
    cases b with
    | nil => simp [charsLt] at hab
    | cons y ys =>
      cases c with
      | nil => simp [charsLt] at hbc
      | cons z zs =>
        simp only [charsLt] at hab hbc ⊢
        by_cases hxy : x.toNat < y.toNat
        · by_cases hyz : y.toNat < z.toNat
          · rw [if_pos (by omega)]
          · rw [if_neg hyz] at hbc
            by_cases hzy : z.toNat < y.toNat
            · rw [if_pos hzy] at hbc
              exact absurd hbc (by simp)
            · rw [if_pos (by omega)]
        · rw [if_neg hxy] at hab
          by_cases hyx : y.toNat < x.toNat
          · rw [if_pos hyx] at hab
            exact absurd hab (by simp)
          · rw [if_neg hyx] at hab
            by_cases hyz : y.toNat < z.toNat
            · rw [if_pos (by omega)]
            · rw [if_neg hyz] at hbc
              by_cases hzy : z.toNat < y.toNat
              · rw [if_pos hzy] at hbc
                exact absurd hbc (by simp)
              · rw [if_neg hzy] at hbc
                rw [if_neg (by omega), if_neg (by omega)]
                exact ih ys zs hab hbc

theorem charsLt_connex (a : List Char) : ∀ (b : List Char),
    charsLt a b = false → charsLt b a = false → a = b := by
  induction a with
  | nil =>
    intro b hab _
    cases b with
    | nil => rfl
    | cons y ys => simp [charsLt] at hab
  | cons x xs ih =>
    intro b hab hba
    cases b with
    | nil => simp [charsLt] at hba
    | cons y ys =>
      simp only [charsLt] at hab hba
      by_cases hxy : x.toNat < y.toNat
      · rw [if_pos hxy] at hab
        exact absurd hab (by simp)
      · rw [if_neg hxy] at hab
        by_cases hyx : y.toNat < x.toNat
        · rw [if_pos hyx] at hba
          exact absurd hba (by simp)
        · rw [if_neg hyx] at hab
          rw [if_neg (by omega), if_neg (by omega)] at hba
          have hxyeq : x = y := charToNat_inj (by omega)
          rw [hxyeq, ih ys hab hba]

theorem strLe_total (a b : String) : strLe a b = true ∨ strLe b a = true := by
  unfold strLe strLt
  cases hab : charsLt a.data b.data
  · cases hba : charsLt b.data a.data
    · have : a.data = b.data := charsLt_connex _ _ hab hba
      have hb : a = b := by
        cases a
        cases b
        exact congrArg String.mk this
      subst hb
      simp
    · simp
  · simp

theorem strLe_trans {a b c : String} (hab : strLe a b = true)
    (hbc : strLe b c = true) : strLe a c = true := by
  unfold strLe strLt at hab hbc ⊢
  rcases Bool.or_eq_true_iff.mp hab with h1 | h1
  · rcases Bool.or_eq_true_iff.mp hbc with h2 | h2
    · exact Bool.or_eq_true_iff.mpr (Or.inl (charsLt_trans _ _ _ h1 h2))
    · have : b = c := by simpa using h2
      subst this
      exact Bool.or_eq_true_iff.mpr (Or.inl h1)
  · have : a = b := by simpa using h1
    subst this
    exact hbc

theorem strLe_antisymm {a b : String} (hab : strLe a b = true)
    (hba : strLe b a = true) : a = b := by
  unfold strLe strLt at hab hba
  rcases Bool.or_eq_true_iff.mp hab with h1 | h1
  · rcases Bool.or_eq_true_iff.mp hba with h2 | h2
    · have := charsLt_trans _ _ _ h1 h2
      rw [charsLt_irrefl] at this
      exact absurd this (by simp)
    · exact (by simpa using h2 : b = a).symm
  · simpa using h1

instance : IsTotal (String × String) repoLeR :=
  ⟨fun a b => strLe_total a.1 b.1⟩

instance : IsTrans (String × String) repoLeR :=
  ⟨fun _ _ _ hab hbc => strLe_trans hab hbc⟩

theorem pyGroupBy_eq_nil {α κ : Type} [DecidableEq κ] (f : α → κ) :
    ∀ l : List α, pyGroupBy f l = [] ↔ l = [] := by
  intro l
  cases l with
  | nil => simp [pyGroupBy]
  | cons x xs =>
    simp only [pyGroupBy]
    cases pyGroupBy f xs with
    | nil => simp
    | cons g rest =>
      obtain ⟨k, gg⟩ := g
      by_cases hk : f x = k <;> simp [hk]

theorem pyGroupBy_elems {α κ : Type} [DecidableEq κ] (f : α → κ) :
    ∀ (l : List α) (g : κ × List α), g ∈ pyGroupBy f l →
      g.2 ≠ [] ∧ ∀ x ∈ g.2, f x = g.1 := by
  intro l
  induction l with
  | nil => intro g hg; simp [pyGroupBy] at hg
  | cons x xs ih =>
    intro g hg
    simp only [pyGroupBy] at hg
    cases hxs : pyGroupBy f xs with
    | nil =>
      rw [hxs] at hg
      rcases List.mem_singleton.mp hg with rfl
      refine ⟨by simp, ?_⟩
      intro y hy
      rcases List.mem_singleton.mp hy with rfl
      rfl
    | cons g0 rest =>
      obtain ⟨k, gg⟩ := g0
      rw [hxs] at hg
      dsimp only at hg
      by_cases hk : f x = k
      · rw [if_pos hk] at hg
        rcases List.mem_cons.mp hg with rfl | hmem
        · refine ⟨by simp, ?_⟩
          intro y hy
          rcases List.mem_cons.mp hy with rfl | hmem2
          · rfl
          · have := (ih (k, gg) (hxs ▸ List.mem_cons_self _ _)).2 y hmem2
            rw [this, hk]
        · exact ih g (hxs ▸ List.mem_cons_of_mem _ hmem)
      · rw [if_neg hk] at hg
        rcases List.mem_cons.mp hg with rfl | hmem
        · refine ⟨by simp, ?_⟩
          intro y hy
          rcases List.mem_singleton.mp hy with rfl
          rfl
        · exact ih g (hxs ▸ hmem)

theorem pyGroupBy_flatten {α κ : Type} [DecidableEq κ] (f : α → κ) :
    ∀ l : List α, (pyGroupBy f l).flatMap (fun g => g.2) = l := by
  intro l
  induction l with
  | nil => simp [pyGroupBy]
  | cons x xs ih =>
    simp only [pyGroupBy]
    cases hxs : pyGroupBy f xs with
    | nil =>
      have hnil : xs = [] := (pyGroupBy_eq_nil f xs).mp hxs
      simp [hnil]
    | cons g0 rest =>
      obtain ⟨k, gg⟩ := g0
      rw [hxs] at ih
      dsimp only
      by_cases hk : f x = k
      · rw [if_pos hk]
        simpa using ih
      · rw [if_neg hk]
        simpa using ih

theorem pyGroupBy_keys_sublist {α κ : Type} [DecidableEq κ] (f : α → κ) :
    ∀ l : List α, (akeys (pyGroupBy f l)).Sublist (l.map f) := by
  intro l
  induction l with
  | nil => simp [pyGroupBy, akeys]
  | cons x xs ih =>
    simp only [pyGroupBy]
    cases hxs : pyGroupBy f xs with
    | nil =>
      simp [akeys]
    | cons g0 rest =>
      obtain ⟨k, gg⟩ := g0
      rw [hxs] at ih
      dsimp only
      by_cases hk : f x = k
      · rw [if_pos hk]
        rw [show akeys ((f x, x :: gg) :: rest) = f x :: akeys rest from rfl]
        rw [show akeys ((k, gg) :: rest) = k :: akeys rest from rfl] at ih
        rw [List.map_cons]
        subst hk
        exact List.Sublist.cons₂ _ ((List.sublist_cons_self _ _).trans ih)
      · rw [if_neg hk]
        rw [show akeys ((f x, [x]) :: (k, gg) :: rest) =
          f x :: akeys ((k, gg) :: rest) from rfl]
        rw [List.map_cons]
        exact List.Sublist.cons₂ _ ih

theorem pyGroupBy_keys_chain {α κ : Type} [DecidableEq κ] (f : α → κ) :
    ∀ l : List α, (akeys (pyGroupBy f l)).Chain' (· ≠ ·) := by
  intro l
  induction l with
  | nil => simp [pyGroupBy, akeys]
  | cons x xs ih =>
    simp only [pyGroupBy]
    cases hxs : pyGroupBy f xs with
    | nil => simp [akeys]
    | cons g0 rest =>
      obtain ⟨k, gg⟩ := g0
      rw [hxs] at ih
      dsimp only
      by_cases hk : f x = k
      · rw [if_pos hk]
        rw [show akeys ((f x, x :: gg) :: rest) = f x :: akeys rest from rfl]
        rw [show akeys ((k, gg) :: rest) = k :: akeys rest from rfl] at ih
        rw [hk]
        exact ih
      · rw [if_neg hk]
        rw [show akeys ((f x, [x]) :: (k, gg) :: rest) =
          f x :: k :: akeys rest from rfl]
        rw [show akeys ((k, gg) :: rest) = k :: akeys rest from rfl] at ih
        exact List.Chain'.cons hk ih

theorem nodup_of_pairwise_chain {κ : Type} {le : κ → κ → Prop}
    (antisym : ∀ a b, le a b → le b a → a = b) :
    ∀ l : List κ, l.Pairwise le → l.Chain' (· ≠ ·) → l.Nodup := by
  intro l
  induction l with
  | nil => intro _ _; exact List.nodup_nil
  | cons x xs ih =>
    intro hp hc
    rw [List.pairwise_cons] at hp
    rw [List.nodup_cons]
    refine ⟨?_, ih hp.2 hc.tail⟩
    intro hmem
    cases xs with
    | nil => simp at hmem
    | cons y ys =>
      rcases List.mem_cons.mp hmem with rfl | hmem2
      · exact (List.chain'_cons.mp hc).1 rfl
      · have hxy : le x y := hp.1 y (List.mem_cons_self _ _)
        have hyx : le y x := by
          rw [List.pairwise_cons] at hp
          exact (hp.2).1 x hmem2
        have := antisym _ _ hxy hyx
        exact (List.chain'_cons.mp hc).1 this

/-! ## remove_digests fold lemmas -/

theorem rd_mapM_spec {s : Cache} : ∀ (ds : List Digest)
    (ls : List (List (String × String))),
    ds.mapM (rd_get_tags s) = .ok ls → ls = ds.map (digestPairs s) := by
  intro ds
  induction ds with
  | nil =>
    intro ls h
    simp only [List.mapM_nil, pure, Except.pure] at h
    obtain rfl := Except.ok.inj h
    rfl
  | cons d rest ih =>
    intro ls h
    rw [List.mapM_cons] at h
    cases hl : alookup s.digestTags d with
    | none =>
      have hstep : rd_get_tags s d = .error .typeError := by
        unfold rd_get_tags
        rw [hl]
        rfl
      rw [hstep] at h
      simp only [Bind.bind, Except.bind] at h
      exact Except.noConfusion h
    | some ps =>
      have hstep : rd_get_tags s d = .ok ps := by
        unfold rd_get_tags
        rw [hl]
        rfl
      rw [hstep] at h
      simp only [Bind.bind, Except.bind] at h
      cases hrest : rest.mapM (rd_get_tags s) with
      | error e =>
        rw [hrest] at h
        simp only [Bind.bind, Except.bind] at h
        exact Except.noConfusion h
      | ok ls2 =>
        rw [hrest] at h
        simp only [Bind.bind, Except.bind, pure, Except.pure] at h
        obtain rfl := Except.ok.inj h
        rw [List.map_cons, ← ih ls2 hrest]
        congr 1
        simp [digestPairs, hl]

theorem rd_tag_fold_spec : ∀ (pairs : List (String × String))
    (m m' : List (String × Digest)),
    (akeys m).Nodup →
    pairs.foldlM rd_tag_step m = .ok m' →
    (akeys m').Nodup ∧
    (∀ t, alookup m' t = if t ∈ pairs.map Prod.snd then none else alookup m t) ∧
    (∀ p ∈ m', p ∈ m) := by
  intro pairs
  induction pairs with
  | nil =>
    intro m m' hnd h
    simp only [List.foldlM_nil, pure, Except.pure] at h
    obtain rfl := Except.ok.inj h
    exact ⟨hnd, fun t => by simp, fun p hp => hp⟩
  | cons rt rest ih =>
    intro m m' hnd h
    rw [List.foldlM_cons] at h
    cases hl : alookup m rt.2 with
    | none =>
      have hstep : rd_tag_step m rt = .error .keyError := by
        unfold rd_tag_step
        rw [hl]
        rfl
      rw [hstep] at h
      simp only [Bind.bind, Except.bind] at h
      exact Except.noConfusion h
    | some d0 =>
      have hstep : rd_tag_step m rt = .ok (aerase m rt.2) := by
        unfold rd_tag_step
        rw [hl]
        rfl
      rw [hstep] at h
      simp only [Bind.bind, Except.bind] at h
      obtain ⟨hnd', hC, hmem⟩ := ih (aerase m rt.2) m' (akeys_aerase_nodup hnd) h
      refine ⟨hnd', ?_, fun p hp => mem_aerase (hmem p hp)⟩
      intro t
      rw [hC t]
      by_cases hmem2 : t ∈ rest.map Prod.snd
      · rw [if_pos hmem2, if_pos (by simp [hmem2])]
      · rw [if_neg hmem2]
        by_cases ht : t = rt.2
        · subst ht
          rw [alookup_aerase_self hnd, if_pos (by simp)]
        · rw [alookup_aerase_ne _ ht, if_neg (by simp [ht, hmem2, Ne.symm])]

theorem rd_digest_fold_spec : ∀ (ds : List Digest)
    (dt dt' : List (Digest × List (String × String))),
    (akeys dt).Nodup →
    ds.foldlM rd_digest_step dt = .ok dt' →
    (akeys dt').Nodup ∧
    (∀ d, alookup dt' d = if d ∈ ds then none else alookup dt d) ∧
    (∀ q ∈ dt', q ∈ dt) := by
  intro ds
  induction ds with
  | nil =>
    intro dt dt' hnd h
    simp only [List.foldlM_nil, pure, Except.pure] at h
    obtain rfl := Except.ok.inj h
    exact ⟨hnd, fun d => by simp, fun q hq => hq⟩
  | cons d rest ih =>
    intro dt dt' hnd h
    rw [List.foldlM_cons] at h
    cases hl : alookup dt d with
    | none =>
      have hstep : rd_digest_step dt d = .error .keyError := by
        unfold rd_digest_step
        rw [hl]
        rfl
      rw [hstep] at h
      simp only [Bind.bind, Except.bind] at h
      exact Except.noConfusion h
    | some ps =>
      have hstep : rd_digest_step dt d = .ok (aerase dt d) := by
        unfold rd_digest_step
        rw [hl]
        rfl
      rw [hstep] at h
      simp only [Bind.bind, Except.bind] at h
      obtain ⟨hnd', hC, hmem⟩ := ih (aerase dt d) dt' (akeys_aerase_nodup hnd) h
      refine ⟨hnd', ?_, fun q hq => mem_aerase (hmem q hq)⟩
      intro d'
      rw [hC d']
      by_cases hmem2 : d' ∈ rest
      · rw [if_pos hmem2, if_pos (by simp [hmem2])]
      · rw [if_neg hmem2]
        by_cases hd : d' = d
        · subst hd
          rw [alookup_aerase_self hnd, if_pos (by simp)]
        · rw [alookup_aerase_ne _ hd, if_neg (by simp [hd, hmem2])]

/-- Characterization of the forward-map fold of `remove_digests` over the
repository groups: assuming distinct group keys, the fold deletes exactly
the grouped (repo, tag) pairs and leaves every other binding unchanged. -/
theorem rd_repo_fold_spec :
    ∀ (groups : List (String × List (String × String)))
      (td td' : List (String × List (String × Digest))),
    (akeys td).Nodup →
    (akeys groups).Nodup →
    (∀ p ∈ td, (akeys p.2).Nodup) →
    (∀ p ∈ td, p.2 ≠ []) →
    groups.foldlM rd_repo_step td = .ok td' →
    (akeys td').Nodup ∧
    (∀ p ∈ td', (akeys p.2).Nodup) ∧
    (∀ p ∈ td', p.2 ≠ []) ∧
    (∀ r t, (∃ g ∈ groups, g.1 = r ∧ t ∈ g.2.map Prod.snd) →
      (alookup td' r).bind (fun m => alookup m t) = none) ∧
    (∀ r t, ¬(∃ g ∈ groups, g.1 = r ∧ t ∈ g.2.map Prod.snd) →
      (alookup td' r).bind (fun m => alookup m t) =
        (alookup td r).bind (fun m => alookup m t)) := by
  intro groups
  induction groups with
  | nil =>
    intro td td' hnd _ hv hne h
    simp only [List.foldlM_nil, pure, Except.pure] at h
    obtain rfl := Except.ok.inj h
    exact ⟨hnd, hv, hne, fun r t hex => by simp at hex, fun r t _ => rfl⟩
  | cons g0 rest ih =>
    obtain ⟨r0, pairs⟩ := g0
    intro td td' hnd hknd hv hne h
    rw [show akeys ((r0, pairs) :: rest) = r0 :: akeys rest from rfl,
      List.nodup_cons] at hknd
    rw [List.foldlM_cons] at h
    cases hft : pairs.foldlM rd_tag_step ((alookup td r0).getD []) with
    | error e =>
      have hstep : rd_repo_step td (r0, pairs) = .error e := by
        unfold rd_repo_step
        rw [show ((r0, pairs).2 : List (String × String)) = pairs from rfl,
          show ((r0, pairs).1 : String) = r0 from rfl, hft]
        rfl
      rw [hstep] at h
      simp only [Bind.bind, Except.bind] at h
      exact Except.noConfusion h
    | ok m' =>
      have hm0nd : (akeys ((alookup td r0).getD [] : List (String × Digest))).Nodup := by
        cases hl : alookup td r0 with
        | none => simp [akeys]
        | some m0 => simpa using hv _ (mem_of_alookup_eq_some hl)
      obtain ⟨hnd_m', hC_m', hmem_m'⟩ := rd_tag_fold_spec pairs _ m' hm0nd hft
      have hstep : rd_repo_step td (r0, pairs) =
          if m'.isEmpty then .ok (aerase td r0) else .ok (ainsert td r0 m') := by
        unfold rd_repo_step
        rw [show ((r0, pairs).2 : List (String × String)) = pairs from rfl,
          show ((r0, pairs).1 : String) = r0 from rfl, hft]
        simp only [Bind.bind, Except.bind]
        split <;> rfl
      by_cases hie : m'.isEmpty = true
      · rw [if_pos hie] at hstep
        rw [hstep] at h
        simp only [Bind.bind, Except.bind] at h
        have hmnil : m' = [] := List.isEmpty_iff.mp hie
        obtain ⟨h1, h2, h3, hdel, hkeep⟩ := ih (aerase td r0) td'
          (akeys_aerase_nodup hnd) hknd.2
          (fun p hp => hv p (mem_aerase hp)) (fun p hp => hne p (mem_aerase hp)) h
        refine ⟨h1, h2, h3, ?_, ?_⟩
        · intro r t hex
          obtain ⟨g, hg, hg1, hg2⟩ := hex
          rcases List.mem_cons.mp hg with rfl | hgrest
          · -- the head group
            have hnorest : ¬(∃ g ∈ rest, g.1 = r ∧ t ∈ g.2.map Prod.snd) := by
              rintro ⟨g2, hg2mem, hg21, _⟩
              have h0 : r ∈ akeys rest := by
                have := mem_akeys_of_mem hg2mem
                rwa [hg21] at this
              exact hknd.1 (by rw [show r0 = r from hg1]; exact h0)
            rw [hkeep r t hnorest, ← hg1, alookup_aerase_self hnd, Option.none_bind]
          · exact hdel r t ⟨g, hgrest, hg1, hg2⟩
        · intro r t hnex
          have hnorest : ¬(∃ g ∈ rest, g.1 = r ∧ t ∈ g.2.map Prod.snd) := by
            rintro ⟨g2, hg2mem, hg21, hg22⟩
            exact hnex ⟨g2, List.mem_cons_of_mem _ hg2mem, hg21, hg22⟩
          rw [hkeep r t hnorest]
          by_cases hr : r = r0
          · subst hr
            rw [alookup_aerase_self hnd, Option.none_bind]
            have hnt : t ∉ pairs.map Prod.snd := by
              intro hc
              exact hnex ⟨(r, pairs), List.mem_cons_self _ _, rfl, hc⟩
            have := hC_m' t
            rw [if_neg hnt, hmnil] at this
            cases hl : alookup td r with
            | none => simp
            | some m0 =>
              have h2' : alookup m0 t = none := by
                rw [hl] at this
                simpa [alookup] using this.symm
              rw [Option.some_bind, h2']
          · rw [alookup_aerase_ne _ hr]
      · rw [if_neg hie] at hstep
        rw [hstep] at h
        simp only [Bind.bind, Except.bind] at h
        obtain ⟨h1, h2, h3, hdel, hkeep⟩ := ih (ainsert td r0 m') td'
          (akeys_ainsert_nodup hnd) hknd.2
          (fun p hp => by
            rcases mem_ainsert hp with rfl | hp2
            · exact hnd_m'
            · exact hv p hp2)
          (fun p hp => by
            rcases mem_ainsert hp with rfl | hp2
            · simpa [List.isEmpty_iff] using hie
            · exact hne p hp2) h
        refine ⟨h1, h2, h3, ?_, ?_⟩
        · intro r t hex
          obtain ⟨g, hg, hg1, hg2⟩ := hex
          rcases List.mem_cons.mp hg with rfl | hgrest
          · have hnorest : ¬(∃ g ∈ rest, g.1 = r ∧ t ∈ g.2.map Prod.snd) := by
              rintro ⟨g2, hg2mem, hg21, _⟩
              have h0 : r ∈ akeys rest := by
                have := mem_akeys_of_mem hg2mem
                rwa [hg21] at this
              exact hknd.1 (by rw [show r0 = r from hg1]; exact h0)
            rw [hkeep r t hnorest, ← hg1, alookup_ainsert_self, Option.some_bind]
            have := hC_m' t
            rw [if_pos hg2] at this
            exact this
          · exact hdel r t ⟨g, hgrest, hg1, hg2⟩
        · intro r t hnex
          have hnorest : ¬(∃ g ∈ rest, g.1 = r ∧ t ∈ g.2.map Prod.snd) := by
            rintro ⟨g2, hg2mem, hg21, hg22⟩
            exact hnex ⟨g2, List.mem_cons_of_mem _ hg2mem, hg21, hg22⟩
          rw [hkeep r t hnorest]
          by_cases hr : r = r0
          · subst hr
            rw [alookup_ainsert_self, Option.some_bind]
            have hnt : t ∉ pairs.map Prod.snd := by
              intro hc
              exact hnex ⟨(r, pairs), List.mem_cons_self _ _, rfl, hc⟩
            have := hC_m' t
            rw [if_neg hnt] at this
            rw [this]
            cases alookup td r <;> rfl
          · rw [alookup_ainsert_ne _ _ hr]

theorem remove_digests_preserves {s s' : Cache} {digests : List Digest}
    (hwf : WF s) (hsi : SpecInv s)
    (hok : remove_digests s digests = .ok s') :
    WF s' ∧ SpecInv s' := by
  obtain ⟨hnd1, hnd2, hnd3, hnd4⟩ := hwf
  obtain ⟨hco, hne1, hne2⟩ := hsi
  unfold remove_digests at hok
  cases hmap : digests.mapM (rd_get_tags s) with
  | error e =>
    rw [hmap] at hok
    simp only [Bind.bind, Except.bind] at hok
    exact Except.noConfusion hok
  | ok all_tags =>
    rw [hmap] at hok
    simp only [Bind.bind, Except.bind] at hok
    obtain rfl : all_tags = digests.map (digestPairs s) :=
      rd_mapM_spec digests all_tags hmap
    cases hfold1 : (pyGroupBy Prod.fst (List.insertionSort repoLeR
        (digests.map (digestPairs s)).flatten)).foldlM rd_repo_step s.tagDigests with
    | error e =>
      rw [hfold1] at hok
      exact Except.noConfusion hok
    | ok td' =>
      rw [hfold1] at hok
      cases hfold2 : digests.foldlM rd_digest_step s.digestTags with
      | error e =>
        rw [hfold2] at hok
        exact Except.noConfusion hok
      | ok dt2 =>
        rw [hfold2] at hok
        obtain rfl : (⟨td', dt2⟩ : Cache) = s' := Except.ok.inj hok
        -- sortedness and grouping facts
        have hperm := List.perm_insertionSort repoLeR
          (digests.map (digestPairs s)).flatten
        have hsorted := List.sorted_insertionSort repoLeR
          (digests.map (digestPairs s)).flatten
        have hpw_map : (List.Pairwise (fun a b : String => strLe a b = true)
            ((List.insertionSort repoLeR
              (digests.map (digestPairs s)).flatten).map Prod.fst)) := by
          rw [List.pairwise_map]
          exact hsorted
        have hkeys_pw := hpw_map.sublist (pyGroupBy_keys_sublist Prod.fst _)
        have hkeys_nodup := nodup_of_pairwise_chain
          (fun a b hab hba => strLe_antisymm hab hba) _ hkeys_pw
          (pyGroupBy_keys_chain Prod.fst _)
        have hmemflat : ∀ rt : String × String,
            rt ∈ (digests.map (digestPairs s)).flatten ↔
            ∃ d ∈ digests, rt ∈ digestPairs s d := by
          intro rt
          rw [List.mem_flatten]
          constructor
          · rintro ⟨l, hl, hrt⟩
            obtain ⟨d, hd, rfl⟩ := List.mem_map.mp hl
            exact ⟨d, hd, hrt⟩
          · rintro ⟨d, hd, hrt⟩
            exact ⟨digestPairs s d, List.mem_map_of_mem _ hd, hrt⟩
        have hbridge : ∀ r t,
            (∃ g ∈ pyGroupBy Prod.fst (List.insertionSort repoLeR
              (digests.map (digestPairs s)).flatten), g.1 = r ∧
              t ∈ g.2.map Prod.snd) ↔
            (r, t) ∈ (digests.map (digestPairs s)).flatten := by
          intro r t
          constructor
          · rintro ⟨g, hg, hg1, hg2⟩
            obtain ⟨rt, hrt, hrt2⟩ := List.mem_map.mp hg2
            have hrt1 : rt.1 = g.1 := (pyGroupBy_elems Prod.fst _ g hg).2 rt hrt
            have hrteq : rt = (r, t) := by
              have : rt = (rt.1, rt.2) := rfl
              rw [this, hrt1, hg1, hrt2]
            rw [hrteq] at hrt
            have hmem2 : (r, t) ∈ (pyGroupBy Prod.fst (List.insertionSort repoLeR
                (digests.map (digestPairs s)).flatten)).flatMap (fun g => g.2) :=
              List.mem_flatMap.mpr ⟨g, hg, hrt⟩
            rw [pyGroupBy_flatten] at hmem2
            exact hperm.mem_iff.mp hmem2
          · intro hmem
            have hmem2 : (r, t) ∈ List.insertionSort repoLeR
                (digests.map (digestPairs s)).flatten := hperm.mem_iff.mpr hmem
            rw [← pyGroupBy_flatten Prod.fst (List.insertionSort repoLeR
              (digests.map (digestPairs s)).flatten)] at hmem2
            obtain ⟨g, hg, hrt⟩ := List.mem_flatMap.mp hmem2
            refine ⟨g, hg, ?_, ?_⟩
            · exact ((pyGroupBy_elems Prod.fst _ g hg).2 _ hrt).symm
            · exact List.mem_map.mpr ⟨(r, t), hrt, rfl⟩
        obtain ⟨h1, h2, h3, hdel, hkeep⟩ := rd_repo_fold_spec _ _ _ hnd1
          hkeys_nodup hnd2 hne1 hfold1
        obtain ⟨g1, gC, gmem⟩ := rd_digest_fold_spec digests _ _ hnd3 hfold2
        have hPairs : ∀ d', digestPairs ⟨td', dt2⟩ d' =
            if d' ∈ digests then [] else digestPairs s d' := by
          intro d'
          show ((alookup dt2 d').getD [] : List (String × String)) = _
          rw [gC d']
          by_cases hd : d' ∈ digests
          · rw [if_pos hd, if_pos hd]
            rfl
          · rw [if_neg hd, if_neg hd]
            rfl
        refine ⟨⟨h1, h2, g1, ?_⟩, ?_, h3, ?_⟩
        · intro q hq
          exact hnd4 _ (gmem q hq)
        · -- Coupled
          intro d' r t
          rw [hPairs d']
          by_cases hd : d' ∈ digests
          · rw [if_pos hd]
            simp only [List.not_mem_nil, false_iff]
            intro hlook
            by_cases hrt : (r, t) ∈ (digests.map (digestPairs s)).flatten
            · rw [show lookupTag ⟨td', dt2⟩ r t =
                  (alookup td' r).bind (fun m => alookup m t) from rfl,
                hdel r t ((hbridge r t).mpr hrt)] at hlook
              exact Option.noConfusion hlook
            · rw [show lookupTag ⟨td', dt2⟩ r t =
                  (alookup td' r).bind (fun m => alookup m t) from rfl,
                hkeep r t (fun hc => hrt ((hbridge r t).mp hc))] at hlook
              have hmem := (hco d' r t).mpr hlook
              exact hrt ((hmemflat (r, t)).mpr ⟨d', hd, hmem⟩)
          · rw [if_neg hd]
            by_cases hrt : (r, t) ∈ (digests.map (digestPairs s)).flatten
            · rw [show lookupTag ⟨td', dt2⟩ r t =
                  (alookup td' r).bind (fun m => alookup m t) from rfl,
                hdel r t ((hbridge r t).mpr hrt)]
              constructor
              · intro hx
                obtain ⟨d2, hd2, hmem2⟩ := (hmemflat (r, t)).mp hrt
                have hl2 := (hco d2 r t).mp hmem2
                have hl3 := (hco d' r t).mp hx
                rw [hl2] at hl3
                obtain rfl := Option.some.inj hl3
                exact absurd hd2 hd
              · intro hx
                exact Option.noConfusion hx
            · rw [show lookupTag ⟨td', dt2⟩ r t =
                  (alookup td' r).bind (fun m => alookup m t) from rfl,
                hkeep r t (fun hc => hrt ((hbridge r t).mp hc))]
              exact hco d' r t
        · -- NoEmpty reverse
          intro q hq
          exact hne2 _ (gmem q hq)

theorem emptyCache_WF : WF emptyCache := by
  refine ⟨?_, ?_, ?_, ?_⟩ <;> simp [emptyCache, akeys]

theorem emptyCache_SpecInv : SpecInv emptyCache := by
  refine ⟨?_, ?_, ?_⟩
  · intro d r t
    simp [digestPairs, lookupTag, alookup, emptyCache]
  · intro p hp
    simp [emptyCache] at hp
  · intro q hq
    simp [emptyCache] at hq

theorem steps_preserve : ∀ {s : Cache} {ops : List CacheOp} {s' : Cache},
    Steps s ops s' → WF s → SpecInv s → WF s' ∧ SpecInv s' := by
  intro s ops s' h
  induction h with
  | nil _ => exact fun hwf hsi => ⟨hwf, hsi⟩
  | @cons s1 s2 s3 op ops hstep hfresh _ ih =>
    intro hwf hsi
    have hnext : WF s2 ∧ SpecInv s2 := by
      cases op with
      | add repo tag d =>
        obtain rfl : add_image s1 repo tag d = s2 := Except.ok.inj hstep
        exact add_image_preserves hwf hsi hfresh
      | update repo tag d =>
        simp only [stepOp] at hstep
        cases hu : update_image s1 repo tag d with
        | error e =>
          rw [hu] at hstep
          exact Except.noConfusion hstep
        | ok p =>
          rw [hu] at hstep
          simp only [Except.map] at hstep
          obtain rfl : p.1 = s2 := Except.ok.inj hstep
          exact update_image_preserves hwf hsi (show _ = Except.ok (p.1, p.2) from hu)
      | removeTag repo tag =>
        obtain rfl : (remove_tag s1 repo tag).1 = s2 := Except.ok.inj hstep
        exact remove_tag_preserves hwf hsi repo tag
      | removeRepo name =>
        simp only [stepOp] at hstep
        cases hu : remove_repository s1 name with
        | error e =>
          rw [hu] at hstep
          exact Except.noConfusion hstep
        | ok p =>
          rw [hu] at hstep
          simp only [Except.map] at hstep
          obtain rfl : p.1 = s2 := Except.ok.inj hstep
          exact remove_repository_preserves hwf hsi
            (show _ = Except.ok (p.1, p.2) from hu)
      | removeDigests ds =>
        exact remove_digests_preserves hwf hsi hstep
    exact ih hnext.1 hnext.2

/-! ## Claim C1 -/

/-- C1 (counterexample to the claim as stated): the bidirectional invariant
does not survive every sequence of mutating calls — calling `add_image`
twice on the same `(repo, tag)` with two different digests (a sequence of
two `addImage` calls from the empty index) leaves the stale pair
`("r", "t")` in `digestTags[[1]]` while `tagDigests["r"]["t"]` is `[2]`. -/
theorem C1_counterexample :
    ¬ (∀ d r t, (r, t) ∈ digestPairs
        (add_image (add_image emptyCache "r" "t" [1]) "r" "t" [2]) d ↔
        lookupTag (add_image (add_image emptyCache "r" "t" [1]) "r" "t" [2]) r t
          = some d) := by
  intro h
  have hmem := (h [1] "r" "t").mp (by decide)
  exact absurd hmem (by decide)

/-- C1 (amended): for every run of
`addImage`/`updateImage`/`removeTag`/`removeRepository`/`removeDigests`
calls from the empty index in which each call completes without raising and
`addImage` is never used to overwrite a pair bound to a different digest,
the state at every point between calls (the end state of each prefix, as
`Steps` is prefix-composable) satisfies the bidirectional invariant
`(r, t) ∈ digestTags[d] ↔ tagDigests[r][t] == d` and has no empty
entries. -/
theorem C1_invariant_steps {ops : List CacheOp} {s : Cache}
    (h : Steps emptyCache ops s) :
    (∀ d r t, (r, t) ∈ digestPairs s d ↔ lookupTag s r t = some d) ∧
    (∀ p ∈ s.tagDigests, p.2 ≠ []) ∧ (∀ q ∈ s.digestTags, q.2 ≠ []) := by
  obtain ⟨_, hco, hne1, hne2⟩ := steps_preserve h emptyCache_WF emptyCache_SpecInv
  exact ⟨hco, hne1, hne2⟩

/-- Witness for C1: a concrete three-call run (add, overwrite via
`update_image`, remove) reaching the empty index again, on which the
amended invariant evaluates. -/
theorem C1_invariant_steps_witness :
    Steps emptyCache
      [CacheOp.add "a" "x" [1], CacheOp.update "a" "x" [2],
        CacheOp.removeTag "a" "x"] emptyCache ∧
    ((∀ d r t, (r, t) ∈ digestPairs emptyCache d ↔
        lookupTag emptyCache r t = some d) ∧
      (∀ p ∈ emptyCache.tagDigests, p.2 ≠ []) ∧
      (∀ q ∈ emptyCache.digestTags, q.2 ≠ [])) := by
  have hsteps : Steps emptyCache
      [CacheOp.add "a" "x" [1], CacheOp.update "a" "x" [2],
        CacheOp.removeTag "a" "x"] emptyCache :=
    @Steps.cons emptyCache ⟨[("a", [("x", [1])])], [([1], [("a", "x")])]⟩
      emptyCache (CacheOp.add "a" "x" [1])
      [CacheOp.update "a" "x" [2], CacheOp.removeTag "a" "x"]
      rfl (Or.inl rfl)
      (@Steps.cons ⟨[("a", [("x", [1])])], [([1], [("a", "x")])]⟩
        ⟨[("a", [("x", [2])])], [([2], [("a", "x")])]⟩
        emptyCache (CacheOp.update "a" "x" [2]) [CacheOp.removeTag "a" "x"]
        rfl trivial
        (@Steps.cons ⟨[("a", [("x", [2])])], [([2], [("a", "x")])]⟩
          emptyCache emptyCache (CacheOp.removeTag "a" "x") []
          rfl trivial (Steps.nil _)))
  exact ⟨hsteps, C1_invariant_steps hsteps⟩

/-! ## Claim C4 -/

/-- C4 (code bug): `update_image` does not behave as documented.  On an
absent repository it raises `AttributeError` (the `if not existing_tags`
branch calls `add_image` but does not return, and `existing_tags.get`
is then evaluated on `None`); on a present repository with an absent tag it
silently does nothing, leaving the tag unset; and on an actual change it
returns `None` rather than `True`.  Only the unchanged case returns
`False` as documented. -/
theorem C4_update_image_bug :
    update_image emptyCache "r" "t" [1] = .error .attributeError ∧
    update_image ⟨[("a", [("x", [1])])], [([1], [("a", "x")])]⟩ "a" "y" [2] =
      .ok (⟨[("a", [("x", [1])])], [([1], [("a", "x")])]⟩, none) ∧
    lookupTag (⟨[("a", [("x", [1])])], [([1], [("a", "x")])]⟩ : Cache) "a" "y" =
      none ∧
    update_image ⟨[("a", [("x", [1])])], [([1], [("a", "x")])]⟩ "a" "x" [2] =
      .ok (⟨[("a", [("x", [2])])], [([2], [("a", "x")])]⟩, none) ∧
    update_image ⟨[("a", [("x", [1])])], [([1], [("a", "x")])]⟩ "a" "x" [1] =
      .ok (⟨[("a", [("x", [1])])], [([1], [("a", "x")])]⟩, some false) :=
  ⟨rfl, rfl, rfl, rfl, rfl⟩

theorem take7_sha256_append (t : String) : ("sha256:" ++ t).take 7 = "sha256:" := by
  apply String.ext
  rw [String.data_take]
  show (("sha256:".data ++ t.data).take 7) = _
  rw [List.take_append_of_le_length (by rfl)]
  rfl

theorem drop7_sha256_append (t : String) :
    (("sha256:" ++ t).drop 7).data = t.data := by
  rw [String.data_drop]
  show (("sha256:".data ++ t.data).drop 7) = _
  rw [List.drop_append_of_le_length (by rfl)]
  rfl

/-! ## Claim C8 -/

/-- C8: constructing a digest from a text whose first seven characters are
not exactly `sha256:` fails with the format error (the source's
`ValueError("Found unsupported digest type.")`), and the error aborts the
construction; a compliant `sha256:<hex>` string (hex-decodable remainder)
constructs successfully. -/
theorem C8_from_sha256_prefix :
    (∀ value : String, value.take 7 ≠ "sha256:" →
      from_sha256 value = .error .formatError) ∧
    (∀ h : String, (hexDecode h.data).isSome →
      ∃ d : Digest, from_sha256 ("sha256:" ++ h) = .ok d) := by
  constructor
  · intro value hne
    unfold from_sha256
    rw [if_pos hne]
  · intro h hdec
    unfold from_sha256
    rw [if_neg (by rw [take7_sha256_append]; exact fun hc => hc rfl),
      drop7_sha256_append]
    obtain ⟨d, hd⟩ := Option.isSome_iff_exists.mp hdec
    rw [hd]
    exact ⟨d, rfl⟩

/-- Witness for C8: the prefix check rejects a seven-character mismatch
(`sha255:...`) and accepts a compliant digest string. -/
theorem C8_from_sha256_prefix_witness :
    ("sha255:445f" : String).take 7 ≠ "sha256:" ∧
    from_sha256 "sha255:445f" = .error .formatError ∧
    (hexDecode ("445f" : String).data).isSome = true ∧
    ∃ d : Digest, from_sha256 ("sha256:" ++ "445f") = .ok d := by
  refine ⟨by decide, C8_from_sha256_prefix.1 "sha255:445f" (by decide), by decide,
    C8_from_sha256_prefix.2 "445f" (by decide)⟩

/-! ## Claim C10 -/

theorem alookup_append {α β : Type} [DecidableEq α]
    (l1 l2 : List (α × β)) (k : α) :
    alookup (l1 ++ l2) k =
      match alookup l1 k with
      | some v => some v
      | none => alookup l2 k := by
  induction l1 with
  | nil => simp [alookup]
  | cons p rest ih =>
    obtain ⟨k', v'⟩ := p
    by_cases hk : k' = k
    · subst hk
      simp [alookup]
    · simp only [List.cons_append, alookup, if_neg hk]
      exact ih

/-- C10: calling the cache's `get_tag_names` with a filter naming an
unknown repository is not a pure read: the defaultdict access inserts an
empty tag map for it into `tagDigests`, so the repository afterwards tests
as contained, the no-empty-entries property is violated, and `digestTags`
is unchanged; the unknown repository contributes no output rows. -/
theorem C10_get_tag_names_defaultdict {s : Cache} {repo : String}
    (habs : alookup s.tagDigests repo = none) :
    (get_tag_names s (some [repo])).2.tagDigests = s.tagDigests ++ [(repo, [])] ∧
    cacheContains (get_tag_names s (some [repo])).2 repo = true ∧
    (get_tag_names s (some [repo])).2.digestTags = s.digestTags ∧
    ¬ (∀ p ∈ (get_tag_names s (some [repo])).2.tagDigests, p.2 ≠ []) ∧
    (get_tag_names s (some [repo])).1 = [] := by
  have hres : get_tag_names s (some [repo]) =
      ([], ⟨s.tagDigests ++ [(repo, [])], s.digestTags⟩) := by
    unfold get_tag_names gtn_step
    simp only [List.isEmpty_cons, List.foldl_cons, List.foldl_nil, habs]
    rw [if_neg (by simp)]
  rw [hres]
  refine ⟨rfl, ?_, rfl, ?_, rfl⟩
  · unfold cacheContains
    rw [show (([], ⟨s.tagDigests ++ [(repo, [])], s.digestTags⟩) :
        List (String × String) × Cache).2.tagDigests =
      s.tagDigests ++ [(repo, [])] from rfl]
    rw [alookup_append, habs]
    simp [alookup]
  · intro hall
    exact hall (repo, []) (List.mem_append_right _ (List.mem_singleton_self _)) rfl

/-- Witness for C10: on a two-repository index, filtering by the unknown
repository `zzz` mutates the forward map, flips containment, and leaves the
reverse map alone. -/
theorem C10_get_tag_names_defaultdict_witness :
    alookup (⟨[("a", [("x", [1])])], [([1], [("a", "x")])]⟩ : Cache).tagDigests
      "zzz" = none ∧
    ((get_tag_names ⟨[("a", [("x", [1])])], [([1], [("a", "x")])]⟩
        (some ["zzz"])).2.tagDigests =
      [("a", [("x", [1])])] ++ [("zzz", [])] ∧
    cacheContains (get_tag_names ⟨[("a", [("x", [1])])], [([1], [("a", "x")])]⟩
        (some ["zzz"])).2 "zzz" = true ∧
    (get_tag_names ⟨[("a", [("x", [1])])], [([1], [("a", "x")])]⟩
        (some ["zzz"])).2.digestTags = [([1], [("a", "x")])] ∧
    ¬ (∀ p ∈ (get_tag_names ⟨[("a", [("x", [1])])], [([1], [("a", "x")])]⟩
        (some ["zzz"])).2.tagDigests, p.2 ≠ []) ∧
    (get_tag_names ⟨[("a", [("x", [1])])], [([1], [("a", "x")])]⟩
        (some ["zzz"])).1 = []) :=
  ⟨rfl, C10_get_tag_names_defaultdict rfl⟩

/-! ## Claim C7 -/

/-- C7: on any well-formed index (unique dict keys, as every Python dict
has), repeating a `remove_tag` call returns `False` the second time and
leaves the index exactly as after the first call; likewise a completed
`remove_repository` call repeated returns `False` with the index
unchanged. -/
theorem C7_remove_idempotent {s : Cache} (hwf : WF s) :
    (∀ repo tag, remove_tag (remove_tag s repo tag).1 repo tag =
      ((remove_tag s repo tag).1, false)) ∧
    (∀ name s1 b, remove_repository s name = .ok (s1, b) →
      remove_repository s1 name = .ok (s1, false)) := by
  obtain ⟨hnd1, hnd2, _, _⟩ := hwf
  constructor
  · intro repo tag
    cases hm : alookup s.tagDigests repo with
    | none =>
      have hfirst : remove_tag s repo tag = (s, false) := by
        unfold remove_tag
        rw [hm]
      rw [hfirst]
      exact hfirst
    | some m =>
      by_cases hie : m.isEmpty = true
      · have hfirst : remove_tag s repo tag = (s, false) := by
          unfold remove_tag
          rw [hm]
          simp only [hie, if_true]
        rw [hfirst]
        exact hfirst
      · cases ht : alookup m tag with
        | none =>
          have hfirst : remove_tag s repo tag = (s, false) := by
            unfold remove_tag
            rw [hm]
            simp only [hie, Bool.false_eq_true, if_false, ht]
          rw [hfirst]
          exact hfirst
        | some d0 =>
          by_cases hd0 : d0.isEmpty = true
          · have hfirst : remove_tag s repo tag = (s, false) := by
              unfold remove_tag
              rw [hm]
              simp only [hie, Bool.false_eq_true, if_false, ht, hd0, if_true]
            rw [hfirst]
            exact hfirst
          · have hmnd : (akeys m).Nodup := hnd2 _ (mem_of_alookup_eq_some hm)
            have htd1 : (discard_digest_tag s d0 repo tag).tagDigests =
              s.tagDigests := discard_tagDigests s d0 repo tag
            by_cases hrem : (aerase m tag).isEmpty = true
            · have hfirst : remove_tag s repo tag =
                  (⟨aerase (discard_digest_tag s d0 repo tag).tagDigests repo,
                    (discard_digest_tag s d0 repo tag).digestTags⟩, true) := by
                unfold remove_tag
                rw [hm]
                simp only [hie, Bool.false_eq_true, if_false, ht, hd0, hrem, if_true]
              rw [hfirst]
              unfold remove_tag
              rw [show ((⟨aerase (discard_digest_tag s d0 repo tag).tagDigests repo,
                  (discard_digest_tag s d0 repo tag).digestTags⟩, true) :
                  Cache × Bool).1.tagDigests =
                aerase (discard_digest_tag s d0 repo tag).tagDigests repo from rfl]
              rw [htd1, alookup_aerase_self hnd1]
            · have hfirst : remove_tag s repo tag =
                  (⟨ainsert (discard_digest_tag s d0 repo tag).tagDigests repo
                      (aerase m tag),
                    (discard_digest_tag s d0 repo tag).digestTags⟩, true) := by
                unfold remove_tag
                rw [hm]
                simp only [hie, Bool.false_eq_true, if_false, ht, hd0, hrem]
              rw [hfirst]
              unfold remove_tag
              rw [show ((⟨ainsert (discard_digest_tag s d0 repo tag).tagDigests repo
                    (aerase m tag),
                  (discard_digest_tag s d0 repo tag).digestTags⟩, true) :
                  Cache × Bool).1.tagDigests =
                ainsert (discard_digest_tag s d0 repo tag).tagDigests repo
                  (aerase m tag) from rfl]
              rw [alookup_ainsert_self]
              simp only [hrem, Bool.false_eq_true, if_false]
              rw [alookup_aerase_self hmnd]
  · intro name s1 b hok
    unfold remove_repository at hok
    cases hm : alookup s.tagDigests name with
    | none =>
      rw [hm] at hok
      obtain ⟨rfl, _⟩ : s = s1 ∧ false = b := by
        have := Except.ok.inj hok
        exact ⟨congrArg Prod.fst this, congrArg Prod.snd this⟩
      unfold remove_repository
      rw [hm]
    | some m =>
      rw [hm] at hok
      simp only at hok
      by_cases hie : m.isEmpty = true
      · rw [if_pos hie] at hok
        obtain ⟨rfl, _⟩ : s = s1 ∧ false = b := by
          have := Except.ok.inj hok
          exact ⟨congrArg Prod.fst this, congrArg Prod.snd this⟩
        unfold remove_repository
        rw [hm]
        simp only [hie, if_true]
      · rw [if_neg hie] at hok
        cases hfold : (firstDedup (m.map Prod.snd)).foldlM (rr_step name)
            s.digestTags with
        | error e =>
          rw [hfold] at hok
          exact absurd hok (by simp [Bind.bind, Except.bind])
        | ok dt' =>
          rw [hfold] at hok
          simp only [Bind.bind, Except.bind] at hok
          obtain ⟨hs', _⟩ : (⟨aerase s.tagDigests name, dt'⟩ : Cache) = s1 ∧
              b = true := by
            simpa [pure, Except.pure] using hok
          rw [← hs']
          unfold remove_repository
          rw [show ((⟨aerase s.tagDigests name, dt'⟩ : Cache)).tagDigests =
            aerase s.tagDigests name from rfl]
          rw [alookup_aerase_self hnd1]

/-- Witness for C7: a one-repository index; removing the tag twice and the
repository twice. -/
theorem C7_remove_idempotent_witness :
    WF (⟨[("a", [("x", [1])])], [([1], [("a", "x")])]⟩ : Cache) ∧
    remove_tag (remove_tag ⟨[("a", [("x", [1])])], [([1], [("a", "x")])]⟩
        "a" "x").1 "a" "x" =
      ((remove_tag ⟨[("a", [("x", [1])])], [([1], [("a", "x")])]⟩ "a" "x").1,
        false) ∧
    remove_repository emptyCache "a" = .ok (emptyCache, false) := by
  have hwf : WF (⟨[("a", [("x", [1])])], [([1], [("a", "x")])]⟩ : Cache) := by
    refine ⟨?_, ?_, ?_, ?_⟩ <;> decide
  have hfirst : remove_repository
      (⟨[("a", [("x", [1])])], [([1], [("a", "x")])]⟩ : Cache) "a" =
      .ok (emptyCache, true) := rfl
  exact ⟨hwf, (C7_remove_idempotent hwf).1 "a" "x",
    (C7_remove_idempotent hwf).2 "a" emptyCache true hfirst⟩

/-! ## Claim C6 -/

theorem hexVal_hexDigitChar : ∀ n, n < 16 → hexVal (hexDigitChar n) = some n := by
  decide

theorem hexDecode_bytesHex : ∀ (d : List Nat), (∀ b ∈ d, b < 256) →
    hexDecode (d.flatMap byteHex) = some d := by
  intro d
  induction d with
  | nil => intro _; rfl
  | cons b rest ih =>
    intro hval
    have hb : b < 256 := hval b (List.mem_cons_self _ _)
    rw [show (b :: rest).flatMap byteHex =
      hexDigitChar (b / 16) :: hexDigitChar (b % 16) :: rest.flatMap byteHex from rfl]
    show (do
      let h ← hexVal (hexDigitChar (b / 16))
      let l ← hexVal (hexDigitChar (b % 16))
      let bs ← hexDecode (rest.flatMap byteHex)
      pure ((16 * h + l) :: bs)) = some (b :: rest)
    rw [hexVal_hexDigitChar _ (by omega), hexVal_hexDigitChar _ (by omega),
      ih (fun x hx => hval x (List.mem_cons_of_mem _ hx))]
    show some ((16 * (b / 16) + b % 16) :: rest) = some (b :: rest)
    rw [Nat.div_add_mod b 16]

theorem from_as_sha256 (d : Digest) (h : ∀ b ∈ d, b < 256) :
    from_sha256 (as_sha256 d) = .ok d := by
  unfold from_sha256 as_sha256
  rw [if_neg (by rw [take7_sha256_append]; exact fun hc => hc rfl),
    drop7_sha256_append]
  rw [show (String.mk (d.flatMap byteHex)).data = d.flatMap byteHex from rfl]
  rw [hexDecode_bytesHex d h]

theorem ainsert_of_not_mem {α β : Type} [DecidableEq α]
    {l : List (α × β)} {k : α} (v : β) (h : k ∉ akeys l) :
    ainsert l k v = l ++ [(k, v)] := by
  induction l with
  | nil => rfl
  | cons p rest ih =>
    obtain ⟨k', v'⟩ := p
    rw [show akeys ((k', v') :: rest) = k' :: akeys rest from rfl] at h
    have hk : k' ≠ k := fun hc => h (hc ▸ List.mem_cons_self _ _)
    rw [show ainsert ((k', v') :: rest) k v = (k', v') :: ainsert rest k v from by
      simp [ainsert, hk]]
    rw [ih (fun hc => h (List.mem_cons_of_mem _ hc))]
    rfl

theorem foldl_ainsert_eq_append {α β : Type} [DecidableEq α] :
    ∀ (l acc : List (α × β)), (∀ k ∈ akeys l, k ∉ akeys acc) → (akeys l).Nodup →
    l.foldl (fun m q => ainsert m q.1 q.2) acc = acc ++ l := by
  intro l
  induction l with
  | nil => intro acc _ _; simp
  | cons p rest ih =>
    intro acc hfresh hnd
    obtain ⟨k, v⟩ := p
    rw [show akeys ((k, v) :: rest) = k :: akeys rest from rfl,
      List.nodup_cons] at hnd
    rw [List.foldl_cons]
    rw [show ainsert acc (k, v).1 (k, v).2 = acc ++ [(k, v)] from
      ainsert_of_not_mem _ (hfresh k (List.mem_cons_self _ _))]
    rw [ih (acc ++ [(k, v)]) ?_ hnd.2]
    · simp
    · intro k' hk'
      rw [show akeys (acc ++ [(k, v)]) = akeys acc ++ [k] from by
        simp [akeys]]
      intro hc
      rcases List.mem_append.mp hc with h1 | h1
      · exact hfresh k' (List.mem_cons_of_mem _ hk') h1
      · exact hnd.1 (List.mem_singleton.mp h1 ▸ hk')

theorem load_tags_fold :
    ∀ (tags : List (String × Digest)) (acc : List (String × Digest)),
    (∀ q ∈ tags, ∀ b ∈ q.2, b < 256) →
    (tags.map (fun q => (q.1, as_sha256 q.2))).foldlM
      (fun m q => do
        let d ← from_sha256 q.2
        pure (ainsert m q.1 d)) acc =
    .ok (tags.foldl (fun m q => ainsert m q.1 q.2) acc) := by
  intro tags
  induction tags with
  | nil => intro acc _; rfl
  | cons q rest ih =>
    intro acc hval
    rw [List.map_cons, List.foldlM_cons]
    rw [show (do
        let d ← from_sha256 (q.1, as_sha256 q.2).2
        pure (ainsert acc (q.1, as_sha256 q.2).1 d) :
        Except DigestError (List (String × Digest))) = pure (ainsert acc q.1 q.2) from by
      rw [show ((q.1, as_sha256 q.2).2 : String) = as_sha256 q.2 from rfl,
        from_as_sha256 q.2 (hval q (List.mem_cons_self _ _))]
      rfl]
    rw [pure_bind]
    exact ih _ (fun q2 hq2 => hval q2 (List.mem_cons_of_mem _ hq2))

theorem load_dt_inner_ok :
    ∀ (repo : String) (qs : List (String × String))
      (dt : List (Digest × List (String × String))),
    (∀ q ∈ qs, ∃ d : Digest, from_sha256 q.2 = .ok d) →
    ∃ dt', qs.foldlM (fun dt q => do
      let d ← from_sha256 q.2
      let pairs := (alookup dt d).getD []
      let pairs' := if (repo, q.1) ∈ pairs then pairs else pairs ++ [(repo, q.1)]
      pure (ainsert dt d pairs')) dt = .ok dt' := by
  intro repo qs
  induction qs with
  | nil => intro dt _; exact ⟨dt, rfl⟩
  | cons q rest ih =>
    intro dt hval
    obtain ⟨d, hd⟩ := hval q (List.mem_cons_self _ _)
    rw [List.foldlM_cons]
    obtain ⟨dt', hdt'⟩ := ih
      (ainsert dt d (if (repo, q.1) ∈ (alookup dt d).getD [] then
        (alookup dt d).getD [] else (alookup dt d).getD [] ++ [(repo, q.1)]))
      (fun q2 hq2 => hval q2 (List.mem_cons_of_mem _ hq2))
    refine ⟨dt', ?_⟩
    rw [show (do
        let d ← from_sha256 q.2
        let pairs := (alookup dt d).getD []
        let pairs' := if (repo, q.1) ∈ pairs then pairs else pairs ++ [(repo, q.1)]
        pure (ainsert dt d pairs') :
        Except DigestError (List (Digest × List (String × String)))) =
      pure (ainsert dt d (if (repo, q.1) ∈ (alookup dt d).getD [] then
        (alookup dt d).getD [] else (alookup dt d).getD [] ++ [(repo, q.1)])) from by
      rw [hd]
      rfl]
    rw [pure_bind]
    exact hdt'

theorem load_dt_fold_ok :
    ∀ (entries : List (String × List (String × String)))
      (dt : List (Digest × List (String × String))),
    (∀ p ∈ entries, ∀ q ∈ p.2, ∃ d : Digest, from_sha256 q.2 = .ok d) →
    ∃ dt', entries.foldlM (fun dt p =>
      p.2.foldlM (fun dt q => do
        let d ← from_sha256 q.2
        let pairs := (alookup dt d).getD []
        let pairs' := if (p.1, q.1) ∈ pairs then pairs else pairs ++ [(p.1, q.1)]
        pure (ainsert dt d pairs')) dt) dt = .ok dt' := by
  intro entries
  induction entries with
  | nil => intro dt _; exact ⟨dt, rfl⟩
  | cons p rest ih =>
    intro dt hval
    rw [List.foldlM_cons]
    obtain ⟨dt1, hdt1⟩ := load_dt_inner_ok p.1 p.2 dt
      (fun q hq => hval p (List.mem_cons_self _ _) q hq)
    rw [hdt1]
    obtain ⟨dt', hdt'⟩ := ih dt1 (fun p2 hp2 => hval p2 (List.mem_cons_of_mem _ hp2))
    exact ⟨dt', hdt'⟩

theorem load_td_fold {s : Cache}
    (hnd2 : ∀ p ∈ s.tagDigests, (akeys p.2).Nodup)
    (hval : ∀ p ∈ s.tagDigests, ∀ q ∈ p.2, ∀ b ∈ q.2, b < 256) :
    ∀ (l : List (String × List (String × Digest))), (∀ p ∈ l, p ∈ s.tagDigests) →
    ∀ (acc : List (String × List (String × Digest))),
    (l.map (fun p => (p.1, p.2.map (fun q => (q.1, as_sha256 q.2))))).foldlM
      (fun (acc : List (String × List (String × Digest)))
          (p : String × List (String × String)) => do
        let m ← p.2.foldlM
          (fun (m : List (String × Digest)) (q : String × String) => do
            let d ← from_sha256 q.2
            pure (ainsert m q.1 d)) []
        pure (ainsert acc p.1 m)) acc =
    .ok (l.foldl (fun acc p => ainsert acc p.1 p.2) acc) := by
  intro l
  induction l with
  | nil => intro _ acc; rfl
  | cons p rest ih =>
    intro hsub acc
    rw [List.map_cons, List.foldlM_cons, List.foldl_cons]
    have hpmem : p ∈ s.tagDigests := hsub p (List.mem_cons_self _ _)
    have hinner := load_tags_fold p.2 [] (fun q hq => hval p hpmem q hq)
    have hid : p.2.foldl (fun m q => ainsert m q.1 q.2) [] = p.2 := by
      have := foldl_ainsert_eq_append p.2 [] (fun k _ => by simp [akeys])
        (hnd2 p hpmem)
      simpa using this
    rw [hid] at hinner
    dsimp only
    rw [hinner]
    exact ih (fun p2 hp2 => hsub p2 (List.mem_cons_of_mem _ hp2)) _

/-- C6: serializing a well-formed non-empty index whose digests are byte
strings (every entry a byte value) and deserializing the result yields an
index whose forward map `tagDigests` is identical to the original, with the
reverse map re-derived by the load. -/
theorem C6_roundtrip {s : Cache} (hwf : WF s) (hne : s.tagDigests ≠ [])
    (hval : ∀ p ∈ s.tagDigests, ∀ q ∈ p.2, ∀ b ∈ q.2, b < 256) :
    ∃ c : Cache, cache_load (cache_serialize s) = .ok c ∧
      c.tagDigests = s.tagDigests := by
  obtain ⟨hnd1, hnd2, _, _⟩ := hwf
  unfold cache_load cache_serialize
  have htd := load_td_fold hnd2 hval s.tagDigests (fun p hp => hp) []
  have hid : s.tagDigests.foldl (fun acc p => ainsert acc p.1 p.2) [] =
      s.tagDigests := by
    have := foldl_ainsert_eq_append s.tagDigests [] (fun k _ => by simp [akeys]) hnd1
    simpa using this
  rw [hid] at htd
  obtain ⟨dt', hdt'⟩ := load_dt_fold_ok
    (s.tagDigests.map (fun p => (p.1, p.2.map (fun q => (q.1, as_sha256 q.2))))) []
    (by
      intro p hp q hq
      obtain ⟨p0, hp0, rfl⟩ := List.mem_map.mp hp
      obtain ⟨q0, hq0, rfl⟩ := List.mem_map.mp hq
      exact ⟨q0.2, from_as_sha256 q0.2 (hval p0 hp0 q0 hq0)⟩)
  rw [htd, hdt']
  exact ⟨⟨s.tagDigests, dt'⟩, rfl, rfl⟩

/-- Witness for C6: the round trip on a concrete two-tag index. -/
theorem C6_roundtrip_witness :
    WF (⟨[("c", [("1.0.0", [2]), ("latest", [2])])],
      [([2], [("c", "1.0.0"), ("c", "latest")])]⟩ : Cache) ∧
    (⟨[("c", [("1.0.0", [2]), ("latest", [2])])],
      [([2], [("c", "1.0.0"), ("c", "latest")])]⟩ : Cache).tagDigests ≠ [] ∧
    ∃ c : Cache, cache_load (cache_serialize
      ⟨[("c", [("1.0.0", [2]), ("latest", [2])])],
        [([2], [("c", "1.0.0"), ("c", "latest")])]⟩) = .ok c ∧
      c.tagDigests = [("c", [("1.0.0", [2]), ("latest", [2])])] := by
  have hwf : WF (⟨[("c", [("1.0.0", [2]), ("latest", [2])])],
      [([2], [("c", "1.0.0"), ("c", "latest")])]⟩ : Cache) := by
    refine ⟨?_, ?_, ?_, ?_⟩ <;> decide
  exact ⟨hwf, by decide,
    C6_roundtrip hwf (by decide) (by decide)⟩

/-! ## C9: tag-name listings (cache layer) -/

instance : IsTotal String strLeR :=
  ⟨fun a b => strLe_total a b⟩

instance : IsTrans String strLeR :=
  ⟨fun _ _ _ h1 h2 => strLe_trans h1 h2⟩

/-- If a string is `strLe`-below another but distinct from it, it is
strictly below. -/
theorem strLt_of_strLe_ne {a b : String} (h : strLe a b = true) (hne : a ≠ b) :
    strLt a b = true := by
  cases hlt : strLt a b with
  | false =>
    unfold strLe at h
    rw [hlt] at h
    simp at h
    exact absurd h hne
  | true => rfl

/-- `Pairwise` for a `flatMap`: blocks pairwise inside, and pairwise
across blocks in order. -/
theorem pairwise_flatMap {α β : Type} {R : β → β → Prop} {f : α → List β} :
    ∀ {l : List α}, (∀ a ∈ l, (f a).Pairwise R) →
      l.Pairwise (fun a b => ∀ x ∈ f a, ∀ y ∈ f b, R x y) →
      (l.flatMap f).Pairwise R
  | [], _, _ => by simp
  | a :: l, hin, hpw => by
    rw [List.flatMap_cons, List.pairwise_append]
    refine ⟨hin a (List.mem_cons_self a l),
      pairwise_flatMap (fun b hb => hin b (List.mem_cons_of_mem _ hb))
        (List.pairwise_cons.mp hpw).2, ?_⟩
    intro x hx y hy
    obtain ⟨b, hb, hyb⟩ := List.mem_flatMap.mp hy
    exact (List.pairwise_cons.mp hpw).1 b hb x hx y hyb

/-- The filtered `get_tag_names` fold over present repositories: pure
append of each repository's sorted tags, caller's order, no mutation. -/
theorem gtn_fold (s : Cache) :
    ∀ (rs : List String), (∀ r ∈ rs, (alookup s.tagDigests r).isSome) →
    ∀ (acc : List (String × String)),
    rs.foldl gtn_step (acc, s)
    = (acc ++ rs.flatMap (fun r =>
        (List.insertionSort strLeR (akeys ((alookup s.tagDigests r).getD []))).map
          (fun t => (r, t))), s)
  | [], _, acc => by simp
  | r :: rs, hall, acc => by
    obtain ⟨m, hm⟩ := Option.isSome_iff_exists.mp (hall r (List.mem_cons_self r rs))
    have hstep : gtn_step (acc, s) r
        = (acc ++ (List.insertionSort strLeR (akeys m)).map (fun t => (r, t)), s) := by
      unfold gtn_step
      rw [hm]
    rw [List.foldl_cons, hstep,
      gtn_fold s rs (fun x hx => hall x (List.mem_cons_of_mem _ hx)) _]
    rw [List.flatMap_cons, hm]
    simp [List.append_assoc]

/-- C9 (cache layer): on a well-formed index, `get_tag_names` terminates
normally and leaves the cache unchanged; with no repository filter the
listing is sorted by repository name and then by tag, and with a filter of
present repositories it follows the caller's repository order with each
repository's tags sorted.  (The query layer's wrapper is a separate code
bug: it passes three positional arguments to this one-parameter method.) -/
theorem C9_get_tag_names_sorted (s : Cache) (rs : List String) (hwf : WF s)
    (hne : rs ≠ []) (hall : ∀ r ∈ rs, (alookup s.tagDigests r).isSome) :
    (List.Pairwise
        (fun a b : String × String =>
          strLt a.1 b.1 = true ∨ (a.1 = b.1 ∧ strLe a.2 b.2 = true))
        (get_tag_names s none).1
      ∧ (get_tag_names s none).2 = s)
    ∧ (get_tag_names s (some rs)).1 = rs.flatMap (fun r =>
        (List.insertionSort strLeR (akeys ((alookup s.tagDigests r).getD []))).map
          (fun t => (r, t)))
    ∧ (get_tag_names s (some rs)).2 = s := by
  refine ⟨⟨?_, rfl⟩, ?_, ?_⟩
  · show List.Pairwise _
      ((List.insertionSort (fun a b => strLe a.1 b.1 = true) s.tagDigests).flatMap
        (fun p => (List.insertionSort strLeR (akeys p.2)).map (fun t => (p.1, t))))
    have hto : IsTotal (String × List (String × Digest))
        (fun a b => strLe a.1 b.1 = true) := ⟨fun a b => strLe_total a.1 b.1⟩
    have htr : IsTrans (String × List (String × Digest))
        (fun a b => strLe a.1 b.1 = true) :=
      ⟨fun _ _ _ h1 h2 => strLe_trans h1 h2⟩
    have hs : List.Pairwise
        (fun (a b : String × List (String × Digest)) => strLe a.1 b.1 = true)
        (List.insertionSort (fun a b => strLe a.1 b.1 = true) s.tagDigests) :=
      @List.sorted_insertionSort _ _ _ hto htr s.tagDigests
    have hnd : ((List.insertionSort (fun a b => strLe a.1 b.1 = true)
        s.tagDigests).map Prod.fst).Nodup :=
      ((List.perm_insertionSort _ _).map Prod.fst).nodup_iff.mpr hwf.1
    have hne' : List.Pairwise
        (fun (a b : String × List (String × Digest)) => a.1 ≠ b.1)
        (List.insertionSort (fun a b => strLe a.1 b.1 = true) s.tagDigests) :=
      List.pairwise_map.mp hnd
    refine pairwise_flatMap (fun p _ => ?_) ((hs.and hne').imp ?_)
    · refine List.pairwise_map.mpr ?_
      exact (List.sorted_insertionSort strLeR (akeys p.2)).imp
        (fun h => Or.inr ⟨rfl, h⟩)
    · intro p q hpq x hx y hy
      obtain ⟨tx, _, hxe⟩ := List.mem_map.mp hx
      obtain ⟨ty, _, hye⟩ := List.mem_map.mp hy
      refine Or.inl ?_
      rw [← hxe, ← hye]
      exact strLt_of_strLe_ne hpq.1 hpq.2
  · show (if rs.isEmpty then _ else rs.foldl gtn_step ([], s)).1 = _
    rw [if_neg (by simpa using hne), gtn_fold s rs hall []]
    rfl
  · show (if rs.isEmpty then _ else rs.foldl gtn_step ([], s)).2 = _
    rw [if_neg (by simpa using hne), gtn_fold s rs hall []]

/-- Witness for C9: the cache-layer listing on a concrete two-repository
index, unfiltered and filtered by `["b", "a"]`. -/
theorem C9_get_tag_names_sorted_witness :
    (List.Pairwise
        (fun a b : String × String =>
          strLt a.1 b.1 = true ∨ (a.1 = b.1 ∧ strLe a.2 b.2 = true))
        (get_tag_names (add_image (add_image emptyCache "b" "y" [1]) "a" "x" [2])
          none).1
      ∧ (get_tag_names (add_image (add_image emptyCache "b" "y" [1]) "a" "x" [2])
          none).2 = add_image (add_image emptyCache "b" "y" [1]) "a" "x" [2])
    ∧ (get_tag_names (add_image (add_image emptyCache "b" "y" [1]) "a" "x" [2])
        (some ["b", "a"])).1 = (["b", "a"] : List String).flatMap (fun r =>
        (List.insertionSort strLeR (akeys ((alookup
          (add_image (add_image emptyCache "b" "y" [1]) "a" "x" [2]).tagDigests
          r).getD []))).map (fun t => (r, t)))
    ∧ (get_tag_names (add_image (add_image emptyCache "b" "y" [1]) "a" "x" [2])
        (some ["b", "a"])).2
      = add_image (add_image emptyCache "b" "y" [1]) "a" "x" [2] :=
  C9_get_tag_names_sorted (add_image (add_image emptyCache "b" "y" [1]) "a" "x" [2])
    ["b", "a"] (by refine ⟨?_, ?_, ?_, ?_⟩ <;> decide) (by decide) (by decide)

/-! ## C2: select_tags under match_all_tags -/

/-- Acceptance of `_complete_match` under `match_all_tags`: every
repository group of the digest must belong to a selected repository with a
non-empty matched set, keep its current tags inside that matched set, and
hit no exclusion selector. -/
theorem st_groups_ok_iff (tag_sets : List (String × List String))
    (excluded : List TagFilter) (raiseRepo raiseTag : Bool) (d : Digest) :
    ∀ (groups : List (String × List (String × String))),
    (st_check_groups tag_sets excluded true raiseRepo raiseTag d groups = .ok true ↔
      ∀ g ∈ groups, ∃ tset, alookup tag_sets g.1 = some tset ∧ tset ≠ [] ∧
        (∀ t ∈ firstDedup (g.2.map Prod.snd), t ∈ tset) ∧
        (firstDedup (g.2.map Prod.snd)).any (anyTagMatches excluded) = false)
  | [] => by simp [st_check_groups]
  | (rn, rt) :: rest => by
    rw [List.forall_mem_cons]
    cases halk : alookup tag_sets rn with
    | none =>
      constructor
      · intro h
        exfalso
        unfold st_check_groups at h
        rw [halk] at h
        cases raiseRepo <;> simp at h
      · rintro ⟨⟨tset, hts2, _⟩, _⟩
        exact absurd hts2 (by simp)
    | some ts =>
      have hunf : st_check_groups tag_sets excluded true raiseRepo raiseTag d
          ((rn, rt) :: rest)
          = if ts.isEmpty then
              (if raiseRepo then .error (.intersectionRepo rn d) else .ok false)
            else if ((firstDedup (rt.map Prod.snd)).filter
                (fun t => t ∉ ts)).isEmpty then
              (if (firstDedup (rt.map Prod.snd)).any (anyTagMatches excluded)
                then .ok false
                else st_check_groups tag_sets excluded true raiseRepo raiseTag d rest)
            else if raiseTag then
              .error (.intersectionTags
                ((firstDedup (rt.map Prod.snd)).filter (fun t => t ∉ ts)) d)
            else .ok false := by
        simp [st_check_groups, halk]
      rw [hunf]
      cases hts : ts.isEmpty with
      | true =>
        rw [if_pos rfl]
        constructor
        · intro h
          exfalso
          cases raiseRepo <;> simp at h
        · rintro ⟨⟨tset, hts2, htne, _⟩, _⟩
          rw [← Option.some.inj hts2] at htne
          exact (htne (List.isEmpty_iff.mp hts)).elim
      | false =>
        rw [if_neg Bool.false_ne_true]
        cases hext : ((firstDedup (rt.map Prod.snd)).filter
            (fun t => t ∉ ts)).isEmpty with
        | true =>
          rw [if_pos rfl]
          cases hexc : (firstDedup (rt.map Prod.snd)).any (anyTagMatches excluded) with
          | true =>
            rw [if_pos rfl]
            constructor
            · intro h
              exact absurd h (by simp)
            · rintro ⟨⟨tset, hts2, _, _, hexc2⟩, _⟩
              exact absurd hexc2 (by simp)
          | false =>
            rw [if_neg Bool.false_ne_true]
            rw [st_groups_ok_iff tag_sets excluded raiseRepo raiseTag d rest]
            constructor
            · intro h
              refine ⟨⟨ts, rfl, ?_, ?_, rfl⟩, h⟩
              · intro he
                rw [he] at hts
                simp at hts
              · intro t htc
                have hnil := List.isEmpty_iff.mp hext
                by_contra hnot
                have hmem : t ∈ (firstDedup (rt.map Prod.snd)).filter
                    (fun t => t ∉ ts) := by
                  rw [List.mem_filter]
                  exact ⟨htc, by simpa using hnot⟩
                rw [hnil] at hmem
                exact absurd hmem (List.not_mem_nil t)
            · rintro ⟨_, h⟩
              exact h
        | false =>
          rw [if_neg Bool.false_ne_true]
          constructor
          · intro h
            exfalso
            cases raiseTag <;> simp at h
          · rintro ⟨⟨tset, hts2, _, hsub, _⟩, _⟩
            rw [← Option.some.inj hts2] at hsub
            have hnil : (firstDedup (rt.map Prod.snd)).filter
                (fun t => t ∉ ts) = [] := by
              rw [List.filter_eq_nil_iff]
              intro t htc
              simpa using hsub t htc
            rw [hnil] at hext
            exact absurd hext (by simp)

/-- C2: under `match_all_tags`, a candidate digest is accepted exactly when,
for every repository group, the group's current tags stay inside that
repository's matched set and none hits an exclusion selector; a group whose
current tags exceed the matched set yields an `IntersectionError` naming
the excess tags and the digest when `raise_intersecting_tag` is set and
drops the digest otherwise.  Concretely, on repo `c` with
`{1.0.0: [2], 1.1.0: [3], latest: [2]}`, selecting `['>=1.1.0','latest']`
with default flags returns `[('c', [3], ['1.1.0'])]`, and with
`raise_intersecting_tag` it raises the conflict for `[2]` naming `1.0.0`. -/
theorem C2_select_tags_match_all (tag_sets : List (String × List String))
    (excluded : List TagFilter) (raiseRepo raiseTag : Bool) (d : Digest)
    (groups : List (String × List (String × String))) :
    (st_check_groups tag_sets excluded true raiseRepo raiseTag d groups = .ok true ↔
      ∀ g ∈ groups, ∃ tset, alookup tag_sets g.1 = some tset ∧ tset ≠ [] ∧
        (∀ t ∈ firstDedup (g.2.map Prod.snd), t ∈ tset) ∧
        (firstDedup (g.2.map Prod.snd)).any (anyTagMatches excluded) = false)
    ∧ (∀ rn rt rest tset, groups = (rn, rt) :: rest →
        alookup tag_sets rn = some tset → tset ≠ [] →
        (firstDedup (rt.map Prod.snd)).filter (fun t => t ∉ tset) ≠ [] →
        st_check_groups tag_sets excluded true raiseRepo raiseTag d groups
          = if raiseTag
            then .error (.intersectionTags
              ((firstDedup (rt.map Prod.snd)).filter (fun t => t ∉ tset)) d)
            else .ok false)
    ∧ (select_tags
        (add_image (add_image (add_image emptyCache "c" "1.0.0" [2])
          "c" "1.1.0" [3]) "c" "latest" [2])
        ["c"] (tagFuncs [">=1.1.0", "latest"]) [] true true false
        = .ok [("c", [3], ["1.1.0"])])
    ∧ (select_tags
        (add_image (add_image (add_image emptyCache "c" "1.0.0" [2])
          "c" "1.1.0" [3]) "c" "latest" [2])
        ["c"] (tagFuncs [">=1.1.0", "latest"]) [] true true true
        = .error (.intersectionTags ["1.0.0"] [2])) := by
  refine ⟨st_groups_ok_iff tag_sets excluded raiseRepo raiseTag d groups,
    ?_, rfl, rfl⟩
  rintro rn rt rest tset rfl halk htne hext
  have hunf : st_check_groups tag_sets excluded true raiseRepo raiseTag d
      ((rn, rt) :: rest)
      = if tset.isEmpty then
          (if raiseRepo then .error (.intersectionRepo rn d) else .ok false)
        else if ((firstDedup (rt.map Prod.snd)).filter
            (fun t => t ∉ tset)).isEmpty then
          (if (firstDedup (rt.map Prod.snd)).any (anyTagMatches excluded)
            then .ok false
            else st_check_groups tag_sets excluded true raiseRepo raiseTag d rest)
        else if raiseTag then
          .error (.intersectionTags
            ((firstDedup (rt.map Prod.snd)).filter (fun t => t ∉ tset)) d)
        else .ok false := by
    simp [st_check_groups, halk]
  rw [hunf]
  rw [if_neg (by simpa [List.isEmpty_iff] using htne)]
  rw [if_neg (by simpa [List.isEmpty_iff] using hext)]

/-- Witness for C2: the excess-tags branch on a concrete single-group
configuration with `raise_intersecting_tag` set. -/
theorem C2_select_tags_match_all_witness :
    st_check_groups [("c", ["1.1.0", "latest"])] (tagFuncs ["latest"])
      true true true [2] [("c", [("c", "1.0.0"), ("c", "latest")])]
      = .error (.intersectionTags ["1.0.0"] [2]) := by
  have h := (C2_select_tags_match_all [("c", ["1.1.0", "latest"])]
      (tagFuncs ["latest"]) true true [2]
      [("c", [("c", "1.0.0"), ("c", "latest")])]).2.1
      "c" [("c", "1.0.0"), ("c", "latest")] [] ["1.1.0", "latest"]
      rfl rfl (by decide) (by decide)
  exact h

/-! ## C5: exclusion filtering -/

/-- C5 (counterexample to the claim as stated): with `match_all_tags`
off, `_complete_match` returns at the first selected repository group, so
an excluded tag of the digest in a later selected repository does not drop
it.  Repositories `r1 = {t1: [1]}` and `r2 = {t2: [1]}`, selectors
`['t1','t2']`, exclusion `['t2']`: the digest `[1]` carries tag `t2` in
selected repository `r2` and `t2` matches the exclusion, yet `select_tags`
returns it. -/
theorem C5_counterexample :
    select_tags (add_image (add_image emptyCache "r1" "t1" [1]) "r2" "t2" [1])
      ["r1", "r2"] (tagFuncs ["t1", "t2"]) (tagFuncs ["t2"]) false true false
      = .ok [("r1", [1], ["t1"])]
    ∧ anyTagMatches (tagFuncs ["t2"]) "t2" = true
    ∧ lookupTag (add_image (add_image emptyCache "r1" "t1" [1]) "r2" "t2" [1])
        "r2" "t2" = some [1] :=
  ⟨rfl, rfl, rfl⟩

/-- C5 (amended): exclusion is decided on the digest's first repository
group (the groups are sorted by repository name).  With `match_all_tags`
off, a digest whose first group belongs to a selected repository with a
non-empty matched set is accepted exactly when no current tag of that
first group matches an exclusion selector; and under either
`match_all_tags` setting, an exclusion hit in the first group prevents
acceptance. -/
theorem C5_exclusion_first_group (tag_sets : List (String × List String))
    (excluded : List TagFilter) (raiseRepo raiseTag : Bool) (d : Digest)
    (rn : String) (rt : List (String × String))
    (rest : List (String × List (String × String))) (tset : List String)
    (halk : alookup tag_sets rn = some tset) (htne : tset ≠ []) :
    (st_check_groups tag_sets excluded false raiseRepo raiseTag d ((rn, rt) :: rest)
      = .ok (!(firstDedup (rt.map Prod.snd)).any (anyTagMatches excluded)))
    ∧ (∀ matchAll, (firstDedup (rt.map Prod.snd)).any (anyTagMatches excluded) = true →
        st_check_groups tag_sets excluded matchAll raiseRepo raiseTag d
          ((rn, rt) :: rest) ≠ .ok true) := by
  have hE : tset.isEmpty = false := by simpa [List.isEmpty_iff] using htne
  have h1 : st_check_groups tag_sets excluded false raiseRepo raiseTag d
      ((rn, rt) :: rest)
      = .ok (!(firstDedup (rt.map Prod.snd)).any (anyTagMatches excluded)) := by
    simp [st_check_groups, halk, hE]
  refine ⟨h1, ?_⟩
  intro matchAll hhit
  cases matchAll with
  | false =>
    intro hok
    rw [h1, hhit] at hok
    simp at hok
  | true =>
    intro hok
    obtain ⟨tset2, _, _, _, hfalse⟩ :=
      ((st_groups_ok_iff tag_sets excluded raiseRepo raiseTag d
        ((rn, rt) :: rest)).mp hok) (rn, rt) (List.mem_cons_self _ _)
    have hf2 : (firstDedup (rt.map Prod.snd)).any (anyTagMatches excluded)
        = false := hfalse
    rw [hhit] at hf2
    exact absurd hf2 (by simp)

/-- Witness for C5 (amended): a concrete single-group configuration whose
only tag matches the exclusion selector. -/
theorem C5_exclusion_first_group_witness :
    (st_check_groups [("r2", ["t2"])] (tagFuncs ["t2"]) false true false [1]
        [("r2", [("r2", "t2")])]
      = .ok (!(firstDedup (([("r2", "t2")] : List (String × String)).map
          Prod.snd)).any (anyTagMatches (tagFuncs ["t2"]))))
    ∧ (∀ matchAll, (firstDedup (([("r2", "t2")] : List (String × String)).map
          Prod.snd)).any (anyTagMatches (tagFuncs ["t2"])) = true →
        st_check_groups [("r2", ["t2"])] (tagFuncs ["t2"]) matchAll true false [1]
          [("r2", [("r2", "t2")])] ≠ .ok true) :=
  C5_exclusion_first_group [("r2", ["t2"])] (tagFuncs ["t2"]) true false [1]
    "r2" [("r2", "t2")] [] ["t2"] rfl (by decide)

/-! ## C3: select_repositories -/

/-- A `foldlM` over a `flatMap` is the nested fold. -/
theorem foldlM_flatMap {m : Type → Type} [Monad m] [LawfulMonad m]
    {α β γ : Type} (g : γ → List α) (f : β → α → m β) :
    ∀ (l : List γ) (b : β),
    (l.flatMap g).foldlM f b = l.foldlM (fun b c => (g c).foldlM f b) b
  | [], _ => rfl
  | c :: l, b => by
    rw [List.flatMap_cons, List.foldlM_append, List.foldlM_cons]
    exact bind_congr (fun b' => foldlM_flatMap g f l b')

/-- The two nested loops of `select_repositories` are the flattened fold
over its name/digest pairs. -/
theorem sr_flatten (s : Cache) (names : List String) (raiseRepo : Bool) :
    select_repositories s names raiseRepo
      = (sr_pairs s names).foldlM (sr_step s names raiseRepo) ([], [])
          >>= fun r => pure r.2 := by
  unfold select_repositories sr_pairs
  rw [foldlM_flatMap]
  simp only [List.foldlM_map]
  rfl

/-- Any element satisfying a decidable predicate has a first occurrence:
the list splits at it with no satisfying element before. -/
theorem exists_first_split {α : Type} (p : α → Prop) [DecidablePred p] :
    ∀ (l : List α), (∃ x ∈ l, p x) →
      ∃ l1 y l2, l = l1 ++ y :: l2 ∧ p y ∧ ∀ q ∈ l1, ¬p q
  | [], hex => absurd hex (by simp)
  | a :: l, hex => by
    by_cases ha : p a
    · exact ⟨[], a, l, rfl, ha, by simp⟩
    · obtain ⟨x, hxl, hpx⟩ := hex
      have hxl' : x ∈ l := by
        cases List.mem_cons.mp hxl with
        | inl h => exact absurd (h ▸ hpx) ha
        | inr h => exact h
      obtain ⟨l1, y, l2, hsplit, hpy, hfirst⟩ :=
        exists_first_split p l ⟨x, hxl', hpx⟩
      refine ⟨a :: l1, y, l2, by rw [hsplit]; rfl, hpy, fun q hq => ?_⟩
      cases List.mem_cons.mp hq with
      | inl h => exact h ▸ ha
      | inr h => exact hfirst q h

/-- A split of a `flatMap` at an element comes from a split of the outer
list at the block containing it. -/
theorem flatMap_split {γ α : Type} (g : γ → List α) :
    ∀ (l : List γ) (l1 l2 : List α) (x : α), l.flatMap g = l1 ++ x :: l2 →
      ∃ cl1 c cl2 xl1 xl2, l = cl1 ++ c :: cl2 ∧ g c = xl1 ++ x :: xl2 ∧
        l1 = cl1.flatMap g ++ xl1
  | [], l1, l2, x, h => by
    rw [List.flatMap_nil] at h
    exact absurd h.symm (by simp)
  | c :: cs, l1, l2, x, h => by
    rw [List.flatMap_cons] at h
    rcases List.append_eq_append_iff.mp h with ⟨a', hl1, hrest⟩ | ⟨c', hgc, hxl2⟩
    · obtain ⟨cl1, cc, cl2, xl1, xl2, hcs, hgcc, ha'⟩ :=
        flatMap_split g cs a' l2 x hrest
      exact ⟨c :: cl1, cc, cl2, xl1, xl2, by rw [hcs, List.cons_append], hgcc,
        by rw [hl1, ha', List.flatMap_cons, List.append_assoc]⟩
    · cases c' with
      | nil =>
        have h2 : cs.flatMap g = [] ++ x :: l2 := by
          rw [List.nil_append]
          rw [List.append_nil] at hgc
          have := hxl2
          rw [List.nil_append] at this
          exact this.symm
        obtain ⟨cl1, cc, cl2, xl1, xl2, hcs, hgcc, hnil⟩ :=
          flatMap_split g cs [] l2 x h2
        have hfm : cl1.flatMap g = [] ∧ xl1 = [] := by
          have := hnil.symm
          exact List.append_eq_nil.mp this
        refine ⟨c :: cl1, cc, cl2, xl1, xl2,
          by rw [hcs, List.cons_append], hgcc, ?_⟩
        rw [List.flatMap_cons, hfm.1, hfm.2, List.append_nil, List.append_nil]
        rw [List.append_nil] at hgc
        exact hgc.symm
      | cons y c'' =>
        rw [List.cons_append] at hxl2
        injection hxl2 with h1 h2
        refine ⟨[], c, cs, l1, c'', rfl, ?_, by simp⟩
        rw [hgc, h1]

/-- `_complete_match` of `select_repositories` returns true exactly when
every repository referencing the digest is among the requested names. -/
theorem scm_ok_true_iff (s : Cache) (names : List String) (raiseRepo : Bool)
    (d : Digest) :
    sr_complete_match s names raiseRepo d = .ok true ↔
      (get_digest_repos s d).filter (fun r => r ∉ names) = [] := by
  simp only [sr_complete_match]
  cases hE : ((get_digest_repos s d).filter (fun r => r ∉ names)).isEmpty with
  | true =>
    rw [if_pos rfl]
    exact iff_of_true rfl (List.isEmpty_iff.mp hE)
  | false =>
    rw [if_neg Bool.false_ne_true]
    refine iff_of_false ?_ ?_
    · cases raiseRepo <;> simp
    · intro hc
      rw [hc] at hE
      exact absurd hE (by simp)

/-- With the raise flag off, `_complete_match` never raises. -/
theorem scm_false_ok (s : Cache) (names : List String) (d : Digest) :
    ∃ b, sr_complete_match s names false d = .ok b := by
  simp only [sr_complete_match]
  cases hE : ((get_digest_repos s d).filter (fun r => r ∉ names)).isEmpty with
  | true => exact ⟨true, by rw [if_pos rfl]⟩
  | false => exact ⟨false, by rw [if_neg Bool.false_ne_true, if_neg Bool.false_ne_true]⟩

/-- With the raise flag on, a non-raising `_complete_match` means the
digest has no external repository. -/
theorem scm_true_ok (s : Cache) (names : List String) (d : Digest) (m : Bool) :
    sr_complete_match s names true d = .ok m →
      (get_digest_repos s d).filter (fun r => r ∉ names) = [] := by
  simp only [sr_complete_match]
  cases hE : ((get_digest_repos s d).filter (fun r => r ∉ names)).isEmpty with
  | true => exact fun _ => List.isEmpty_iff.mp hE
  | false =>
    rw [if_neg Bool.false_ne_true, if_pos trivial]
    intro h
    exact Except.noConfusion h

/-- An error of `_complete_match` carries the external repository names of
the digest. -/
theorem scm_error (s : Cache) (names : List String) (raiseRepo : Bool)
    (d : Digest) (e : QueryError) :
    sr_complete_match s names raiseRepo d = .error e →
      e = .intersectionRepos ((get_digest_repos s d).filter (fun r => r ∉ names)) d ∧
      (get_digest_repos s d).filter (fun r => r ∉ names) ≠ [] := by
  simp only [sr_complete_match]
  cases hE : ((get_digest_repos s d).filter (fun r => r ∉ names)).isEmpty with
  | true =>
    rw [if_pos rfl]
    intro h
    exact Except.noConfusion h
  | false =>
    rw [if_neg Bool.false_ne_true]
    cases raiseRepo with
    | false =>
      rw [if_neg Bool.false_ne_true]
      intro h
      exact Except.noConfusion h
    | true =>
      rw [if_pos rfl]
      intro h
      refine ⟨(Except.error.inj h).symm, fun hc => ?_⟩
      rw [hc] at hE
      exact absurd hE (by simp)

/-- Membership in the output of the `select_repositories` fold: a pair is
kept exactly when it was already there, or its digest is fresh, accepted,
and it is the first pair of the remaining stream carrying that digest. -/
theorem sr_pairs_mem (s : Cache) (names : List String) (raiseRepo : Bool) :
    ∀ (pds : List (String × Digest)) (tested : List Digest)
      (out : List (String × Digest)) (tested' : List Digest)
      (out' : List (String × Digest)),
    pds.foldlM (sr_step s names raiseRepo) (tested, out) = .ok (tested', out') →
    ∀ nd : String × Digest, (nd ∈ out' ↔ nd ∈ out ∨
      (nd.2 ∉ tested ∧ sr_complete_match s names raiseRepo nd.2 = .ok true ∧
        ∃ l1 l2, pds = l1 ++ nd :: l2 ∧ ∀ q ∈ l1, q.2 ≠ nd.2))
  | [], tested, out, tested', out', h, nd => by
    rw [List.foldlM_nil] at h
    have h2 : tested = tested' ∧ out = out' := by
      have := Except.ok.inj h
      exact ⟨congrArg Prod.fst this, congrArg Prod.snd this⟩
    constructor
    · intro hm
      exact Or.inl (h2.2 ▸ hm)
    · rintro (hm | ⟨_, _, l1, l2, hsp, _⟩)
      · exact h2.2 ▸ hm
      · exact absurd hsp (by simp)
  | p :: pds, tested, out, tested', out', h, nd => by
    rw [List.foldlM_cons] at h
    by_cases hmem : p.2 ∈ tested
    · have hstep : sr_step s names raiseRepo (tested, out) p = pure (tested, out) := by
        unfold sr_step
        rw [if_pos hmem]
      rw [hstep, pure_bind] at h
      rw [sr_pairs_mem s names raiseRepo pds tested out tested' out' h nd]
      constructor
      · rintro (h1 | ⟨hnt, hok, l1, l2, hsp, hfst⟩)
        · exact Or.inl h1
        · refine Or.inr ⟨hnt, hok, p :: l1, l2, by rw [hsp]; rfl, fun q hq => ?_⟩
          rcases List.mem_cons.mp hq with rfl | hq'
          · exact fun heq => hnt (heq ▸ hmem)
          · exact hfst q hq'
      · rintro (h1 | ⟨hnt, hok, l1, l2, hsp, hfst⟩)
        · exact Or.inl h1
        · cases l1 with
          | nil =>
            rw [List.nil_append] at hsp
            injection hsp with h1' h2'
            exact absurd (h1' ▸ hmem) hnt
          | cons a l1' =>
            rw [List.cons_append] at hsp
            injection hsp with h1' h2'
            exact Or.inr ⟨hnt, hok, l1', l2, h2',
              fun q hq => hfst q (List.mem_cons_of_mem a hq)⟩
    · cases hscm : sr_complete_match s names raiseRepo p.2 with
      | error e =>
        have hstep : sr_step s names raiseRepo (tested, out) p = .error e := by
          unfold sr_step
          rw [if_neg hmem, hscm]
          rfl
        rw [hstep] at h
        simp only [Bind.bind, Except.bind] at h
        exact Except.noConfusion h
      | ok m =>
        have hstep : sr_step s names raiseRepo (tested, out) p
            = .ok (tested ++ [p.2], if m then out ++ [p] else out) := by
          unfold sr_step
          rw [if_neg hmem, hscm]
          rfl
        rw [hstep] at h
        simp only [Bind.bind, Except.bind] at h
        rw [sr_pairs_mem s names raiseRepo pds (tested ++ [p.2])
          (if m then out ++ [p] else out) tested' out' h nd]
        constructor
        · rintro (h1 | ⟨hnt, hok, l1, l2, hsp, hfst⟩)
          · cases m with
            | true =>
              rcases List.mem_append.mp h1 with h2 | h2
              · exact Or.inl h2
              · have hnd : nd = p := by simpa using h2
                subst hnd
                refine Or.inr ⟨hmem, by rw [hscm], [], pds, rfl, by simp⟩
            | false => exact Or.inl h1
          · have hnt1 : nd.2 ∉ tested := fun hc => hnt (List.mem_append.mpr (Or.inl hc))
            have hne2 : nd.2 ≠ p.2 := fun hc =>
              hnt (List.mem_append.mpr (Or.inr (by simp [hc])))
            refine Or.inr ⟨hnt1, hok, p :: l1, l2, by rw [hsp]; rfl, fun q hq => ?_⟩
            rcases List.mem_cons.mp hq with rfl | hq'
            · exact fun hc => hne2 hc.symm
            · exact hfst q hq'
        · rintro (h1 | ⟨hnt, hok, l1, l2, hsp, hfst⟩)
          · refine Or.inl ?_
            cases m with
            | true => exact List.mem_append.mpr (Or.inl h1)
            | false => exact h1
          · cases l1 with
            | nil =>
              rw [List.nil_append] at hsp
              injection hsp with h1' h2'
              subst h1'
              have hm : m = true := by
                rw [hscm] at hok
                exact Except.ok.inj hok
              subst hm
              exact Or.inl (List.mem_append.mpr (Or.inr (by simp)))
            | cons a l1' =>
              rw [List.cons_append] at hsp
              injection hsp with h1' h2'
              refine Or.inr ⟨?_, hok, l1', l2, h2',
                fun q hq => hfst q (List.mem_cons_of_mem a hq)⟩
              intro hc
              rcases List.mem_append.mp hc with hc1 | hc1
              · exact hnt hc1
              · have heq : nd.2 = p.2 := by simpa using hc1
                exact hfst a (List.mem_cons_self a l1')
                  (by rw [← h1']; exact heq.symm)

/-- The `select_repositories` fold keeps its output digests unique and
inside the tested set. -/
theorem sr_pairs_nodup (s : Cache) (names : List String) (raiseRepo : Bool) :
    ∀ (pds : List (String × Digest)) (tested : List Digest)
      (out : List (String × Digest)) (tested' : List Digest)
      (out' : List (String × Digest)),
    pds.foldlM (sr_step s names raiseRepo) (tested, out) = .ok (tested', out') →
    (∀ nd ∈ out, nd.2 ∈ tested) → (out.map Prod.snd).Nodup →
    (out'.map Prod.snd).Nodup ∧ (∀ nd ∈ out', nd.2 ∈ tested')
  | [], tested, out, tested', out', h, hsub, hnd => by
    rw [List.foldlM_nil] at h
    have h2 : tested = tested' ∧ out = out' := by
      have := Except.ok.inj h
      exact ⟨congrArg Prod.fst this, congrArg Prod.snd this⟩
    exact ⟨h2.2 ▸ hnd, h2.2 ▸ h2.1 ▸ hsub⟩
  | p :: pds, tested, out, tested', out', h, hsub, hnd => by
    rw [List.foldlM_cons] at h
    by_cases hmem : p.2 ∈ tested
    · have hstep : sr_step s names raiseRepo (tested, out) p = pure (tested, out) := by
        unfold sr_step
        rw [if_pos hmem]
      rw [hstep, pure_bind] at h
      exact sr_pairs_nodup s names raiseRepo pds tested out tested' out' h hsub hnd
    · cases hscm : sr_complete_match s names raiseRepo p.2 with
      | error e =>
        have hstep : sr_step s names raiseRepo (tested, out) p = .error e := by
          unfold sr_step
          rw [if_neg hmem, hscm]
          rfl
        rw [hstep] at h
        simp only [Bind.bind, Except.bind] at h
        exact Except.noConfusion h
      | ok m =>
        have hstep : sr_step s names raiseRepo (tested, out) p
            = .ok (tested ++ [p.2], if m then out ++ [p] else out) := by
          unfold sr_step
          rw [if_neg hmem, hscm]
          rfl
        rw [hstep] at h
        simp only [Bind.bind, Except.bind] at h
        refine sr_pairs_nodup s names raiseRepo pds (tested ++ [p.2])
          (if m then out ++ [p] else out) tested' out' h ?_ ?_
        · intro nd hndm
          cases m with
          | true =>
            rcases List.mem_append.mp hndm with h2 | h2
            · exact List.mem_append.mpr (Or.inl (hsub nd h2))
            · have : nd = p := by simpa using h2
              subst this
              exact List.mem_append.mpr (Or.inr (by simp))
          | false => exact List.mem_append.mpr (Or.inl (hsub nd hndm))
        · cases m with
          | true =>
            have hperm : ((out ++ [p]).map Prod.snd).Perm
                (p.2 :: out.map Prod.snd) := by
              rw [List.map_append]
              exact List.perm_append_singleton _ _
            refine hperm.nodup_iff.mpr (List.nodup_cons.mpr ⟨?_, hnd⟩)
            intro hc
            obtain ⟨q, hq, hq2⟩ := List.mem_map.mp hc
            exact hmem (hq2 ▸ hsub q hq)
          | false => exact hnd

/-- With the raise flag on, a completing `select_repositories` fold means
every digest of the stream has no external repository. -/
theorem sr_pairs_good (s : Cache) (names : List String) :
    ∀ (pds : List (String × Digest)) (tested : List Digest)
      (out : List (String × Digest)) (r : List Digest × List (String × Digest)),
    pds.foldlM (sr_step s names true) (tested, out) = .ok r →
    (∀ d ∈ tested, (get_digest_repos s d).filter (fun x => x ∉ names) = []) →
    ∀ q ∈ pds, (get_digest_repos s q.2).filter (fun x => x ∉ names) = []
  | [], _, _, _, _, _ => by simp
  | p :: pds, tested, out, r, h, hgood => by
    rw [List.foldlM_cons] at h
    by_cases hmem : p.2 ∈ tested
    · have hstep : sr_step s names true (tested, out) p = pure (tested, out) := by
        unfold sr_step
        rw [if_pos hmem]
      rw [hstep, pure_bind] at h
      intro q hq
      rcases List.mem_cons.mp hq with rfl | hq'
      · exact hgood q.2 hmem
      · exact sr_pairs_good s names pds tested out r h hgood q hq'
    · cases hscm : sr_complete_match s names true p.2 with
      | error e =>
        have hstep : sr_step s names true (tested, out) p = .error e := by
          unfold sr_step
          rw [if_neg hmem, hscm]
          rfl
        rw [hstep] at h
        simp only [Bind.bind, Except.bind] at h
        exact Except.noConfusion h
      | ok m =>
        have hstep : sr_step s names true (tested, out) p
            = .ok (tested ++ [p.2], if m then out ++ [p] else out) := by
          unfold sr_step
          rw [if_neg hmem, hscm]
          rfl
        rw [hstep] at h
        simp only [Bind.bind, Except.bind] at h
        have hp : (get_digest_repos s p.2).filter (fun x => x ∉ names) = [] :=
          scm_true_ok s names p.2 m hscm
        intro q hq
        rcases List.mem_cons.mp hq with rfl | hq'
        · exact hp
        · refine sr_pairs_good s names pds (tested ++ [p.2])
            (if m then out ++ [p] else out) r h ?_ q hq'
          intro d hd
          rcases List.mem_append.mp hd with h2 | h2
          · exact hgood d h2
          · have : d = p.2 := by simpa using h2
            exact this ▸ hp

/-- An error of the `select_repositories` fold carries a digest together
with its non-empty set of external repositories. -/
theorem sr_pairs_error (s : Cache) (names : List String) (raiseRepo : Bool) :
    ∀ (pds : List (String × Digest)) (tested : List Digest)
      (out : List (String × Digest)) (e : QueryError),
    pds.foldlM (sr_step s names raiseRepo) (tested, out) = .error e →
    ∃ d, e = .intersectionRepos
        ((get_digest_repos s d).filter (fun r => r ∉ names)) d ∧
      (get_digest_repos s d).filter (fun r => r ∉ names) ≠ []
  | [], _, _, e, h => by
    rw [List.foldlM_nil] at h
    exact Except.noConfusion h
  | p :: pds, tested, out, e, h => by
    rw [List.foldlM_cons] at h
    by_cases hmem : p.2 ∈ tested
    · have hstep : sr_step s names raiseRepo (tested, out) p = pure (tested, out) := by
        unfold sr_step
        rw [if_pos hmem]
      rw [hstep, pure_bind] at h
      exact sr_pairs_error s names raiseRepo pds tested out e h
    · cases hscm : sr_complete_match s names raiseRepo p.2 with
      | error e' =>
        have hstep : sr_step s names raiseRepo (tested, out) p = .error e' := by
          unfold sr_step
          rw [if_neg hmem, hscm]
          rfl
        rw [hstep] at h
        simp only [Bind.bind, Except.bind] at h
        obtain ⟨he, hne⟩ := scm_error s names raiseRepo p.2 e' hscm
        exact ⟨p.2, (Except.error.inj h) ▸ he, hne⟩
      | ok m =>
        have hstep : sr_step s names raiseRepo (tested, out) p
            = .ok (tested ++ [p.2], if m then out ++ [p] else out) := by
          unfold sr_step
          rw [if_neg hmem, hscm]
          rfl
        rw [hstep] at h
        simp only [Bind.bind, Except.bind] at h
        exact sr_pairs_error s names raiseRepo pds (tested ++ [p.2])
          (if m then out ++ [p] else out) e h

/-- With the raise flag off, the `select_repositories` fold completes. -/
theorem sr_pairs_total (s : Cache) (names : List String) :
    ∀ (pds : List (String × Digest)) (acc : List Digest × List (String × Digest)),
    ∃ r, pds.foldlM (sr_step s names false) acc = .ok r
  | [], acc => ⟨acc, rfl⟩
  | p :: pds, acc => by
    rw [List.foldlM_cons]
    by_cases hmem : p.2 ∈ acc.1
    · have hstep : sr_step s names false acc p = pure acc := by
        unfold sr_step
        rw [if_pos hmem]
      rw [hstep, pure_bind]
      exact sr_pairs_total s names pds acc
    · obtain ⟨b, hb⟩ := scm_false_ok s names p.2
      have hstep : sr_step s names false acc p
          = .ok (acc.1 ++ [p.2], if b then acc.2 ++ [p] else acc.2) := by
        unfold sr_step
        rw [if_neg hmem, hb]
        rfl
      rw [hstep]
      obtain ⟨r, hr⟩ := sr_pairs_total s names pds
        (acc.1 ++ [p.2], if b then acc.2 ++ [p] else acc.2)
      exact ⟨r, by simp only [Bind.bind, Except.bind]; exact hr⟩

/-- A completing `select_repositories` run is a completing fold. -/
theorem sr_run_ok {s : Cache} {names : List String} {raiseRepo : Bool}
    {out : List (String × Digest)}
    (h : select_repositories s names raiseRepo = .ok out) :
    ∃ tested', (sr_pairs s names).foldlM (sr_step s names raiseRepo) ([], [])
      = .ok (tested', out) := by
  rw [sr_flatten] at h
  cases hr : (sr_pairs s names).foldlM (sr_step s names raiseRepo) ([], []) with
  | error e =>
    rw [hr] at h
    simp only [Bind.bind, Except.bind] at h
    exact Except.noConfusion h
  | ok r =>
    rw [hr] at h
    simp only [Bind.bind, Except.bind] at h
    have : r.2 = out := Except.ok.inj h
    exact ⟨r.1, by rw [← this]⟩

/-- A raising `select_repositories` run is a raising fold. -/
theorem sr_run_error {s : Cache} {names : List String} {raiseRepo : Bool}
    {e : QueryError}
    (h : select_repositories s names raiseRepo = .error e) :
    (sr_pairs s names).foldlM (sr_step s names raiseRepo) ([], []) = .error e := by
  rw [sr_flatten] at h
  cases hr : (sr_pairs s names).foldlM (sr_step s names raiseRepo) ([], []) with
  | error e' =>
    rw [hr] at h
    simp only [Bind.bind, Except.bind] at h
    rw [Except.error.inj h]
  | ok r =>
    rw [hr] at h
    simp only [Bind.bind, Except.bind] at h
    exact Except.noConfusion h

/-- C3: in `select_repositories`, digests are deduplicated globally across
the call: a completing run lists each digest at most once; every kept pair
carries a digest all of whose referencing repositories lie within the
requested names, paired with the first requested repository containing it;
every such all-internal digest of a requested repository is emitted; with
the raise flag on, an external reference turns the run into an
`IntersectionError` carrying the external repository names and the digest,
and with the flag off the run always completes, dropping such digests.
Concretely, with `a = {x: [1]}` and `b = {y: [1]}`: selecting `['a']`
raises the conflict naming `['b']` and `[1]`, returns `[]` with the flag
off, and selecting `['a','b']` returns `[('a', [1])]`. -/
theorem C3_select_repositories (s : Cache) (names : List String) :
    (∀ raiseRepo out, select_repositories s names raiseRepo = .ok out →
      (out.map Prod.snd).Nodup ∧
      (∀ nd ∈ out,
        (get_digest_repos s nd.2).filter (fun r => r ∉ names) = [] ∧
        nd.1 ∈ names ∧ nd.2 ∈ get_digests s nd.1 ∧
        ∃ u v, names = u ++ nd.1 :: v ∧ ∀ n ∈ u, nd.2 ∉ get_digests s n) ∧
      (∀ n ∈ names, ∀ d ∈ get_digests s n,
        (get_digest_repos s d).filter (fun r => r ∉ names) = [] →
        ∃ n', (n', d) ∈ out))
    ∧ (∀ out, select_repositories s names true = .ok out →
        ∀ n ∈ names, ∀ d ∈ get_digests s n,
          (get_digest_repos s d).filter (fun r => r ∉ names) = [])
    ∧ (∀ e, select_repositories s names true = .error e →
        ∃ d, e = .intersectionRepos
            ((get_digest_repos s d).filter (fun r => r ∉ names)) d ∧
          (get_digest_repos s d).filter (fun r => r ∉ names) ≠ [])
    ∧ (∃ out, select_repositories s names false = .ok out)
    ∧ (select_repositories (add_image (add_image emptyCache "a" "x" [1]) "b" "y" [1])
        ["a"] true = .error (.intersectionRepos ["b"] [1]))
    ∧ (select_repositories (add_image (add_image emptyCache "a" "x" [1]) "b" "y" [1])
        ["a"] false = .ok [])
    ∧ (select_repositories (add_image (add_image emptyCache "a" "x" [1]) "b" "y" [1])
        ["a", "b"] true = .ok [("a", [1])]) := by
  refine ⟨?_, ?_, ?_, ?_, rfl, rfl, rfl⟩
  · intro raiseRepo out hok
    obtain ⟨tested', hfold⟩ := sr_run_ok hok
    refine ⟨(sr_pairs_nodup s names raiseRepo (sr_pairs s names) [] [] tested' out
      hfold (by simp) (by simp)).1, ?_, ?_⟩
    · intro nd hndm
      have hchar := (sr_pairs_mem s names raiseRepo (sr_pairs s names) [] []
        tested' out hfold nd).mp hndm
      rcases hchar with h1 | ⟨_, hok2, l1, l2, hsp, hfst⟩
      · exact absurd h1 (List.not_mem_nil nd)
      · refine ⟨(scm_ok_true_iff s names raiseRepo nd.2).mp hok2, ?_, ?_, ?_⟩
        · have hmm : nd ∈ sr_pairs s names := by
            rw [hsp]
            exact List.mem_append.mpr (Or.inr (List.mem_cons_self _ _))
          obtain ⟨n, hn, hin⟩ := List.mem_flatMap.mp hmm
          obtain ⟨d0, _, heq⟩ := List.mem_map.mp hin
          rw [← heq]
          exact hn
        · have hmm : nd ∈ sr_pairs s names := by
            rw [hsp]
            exact List.mem_append.mpr (Or.inr (List.mem_cons_self _ _))
          obtain ⟨n, _, hin⟩ := List.mem_flatMap.mp hmm
          obtain ⟨d0, hd0, heq⟩ := List.mem_map.mp hin
          rw [← heq]
          exact hd0
        · have hsp' : names.flatMap
              (fun n => (get_digests s n).map (fun d => (n, d)))
              = l1 ++ nd :: l2 := hsp
          obtain ⟨cl1, c, cl2, xl1, xl2, hnames, hgc, hl1⟩ :=
            flatMap_split _ names l1 l2 nd hsp'
          have hc : c = nd.1 := by
            have hin : nd ∈ (get_digests s c).map (fun d => (c, d)) := by
              rw [hgc]
              exact List.mem_append.mpr (Or.inr (List.mem_cons_self _ _))
            obtain ⟨d0, _, heq⟩ := List.mem_map.mp hin
            rw [← heq]
          refine ⟨cl1, cl2, by rw [hnames, hc], ?_⟩
          intro n hn hcontra
          have hml1 : (n, nd.2) ∈ l1 := by
            rw [hl1]
            refine List.mem_append.mpr (Or.inl (List.mem_flatMap.mpr
              ⟨n, hn, List.mem_map.mpr ⟨nd.2, hcontra, rfl⟩⟩))
          exact hfst (n, nd.2) hml1 rfl
    · intro n hn d hd hgoodd
      have hpair : (n, d) ∈ sr_pairs s names :=
        List.mem_flatMap.mpr ⟨n, hn, List.mem_map.mpr ⟨d, hd, rfl⟩⟩
      obtain ⟨l1, y, l2, hsp, hpy, hfst⟩ :=
        exists_first_split (fun q => q.2 = d) (sr_pairs s names) ⟨(n, d), hpair, rfl⟩
      have hyout : y ∈ out :=
        (sr_pairs_mem s names raiseRepo (sr_pairs s names) [] []
          tested' out hfold y).mpr
          (Or.inr ⟨List.not_mem_nil y.2,
            by rw [hpy]; exact (scm_ok_true_iff s names raiseRepo d).mpr hgoodd,
            l1, l2, hsp, fun q hq hc => hfst q hq (hc.trans hpy)⟩)
      refine ⟨y.1, ?_⟩
      have hy : (y.1, d) = y := by rw [← hpy]
      exact hy ▸ hyout
  · intro out hok n hn d hd
    obtain ⟨tested', hfold⟩ := sr_run_ok hok
    exact sr_pairs_good s names (sr_pairs s names) [] [] (tested', out)
      hfold (by simp) (n, d)
      (List.mem_flatMap.mpr ⟨n, hn, List.mem_map.mpr ⟨d, hd, rfl⟩⟩)
  · intro e herr
    exact sr_pairs_error s names true (sr_pairs s names) [] [] e (sr_run_error herr)
  · obtain ⟨r, hr⟩ := sr_pairs_total s names (sr_pairs s names) ([], [])
    refine ⟨r.2, ?_⟩
    rw [sr_flatten, hr]
    rfl

/-- Witness for C3: the completing-run characterization on the concrete
two-repository index, requesting both repositories. -/
theorem C3_select_repositories_witness :
    ((([("a", [1])] : List (String × Digest)).map Prod.snd).Nodup ∧
      (∀ nd ∈ ([("a", [1])] : List (String × Digest)),
        (get_digest_repos (add_image (add_image emptyCache "a" "x" [1]) "b" "y" [1])
            nd.2).filter (fun r => r ∉ ["a", "b"]) = [] ∧
        nd.1 ∈ ["a", "b"] ∧
        nd.2 ∈ get_digests
          (add_image (add_image emptyCache "a" "x" [1]) "b" "y" [1]) nd.1 ∧
        ∃ u v, ["a", "b"] = u ++ nd.1 :: v ∧
          ∀ n ∈ u, nd.2 ∉ get_digests
            (add_image (add_image emptyCache "a" "x" [1]) "b" "y" [1]) n) ∧
      (∀ n ∈ ["a", "b"],
        ∀ d ∈ get_digests (add_image (add_image emptyCache "a" "x" [1]) "b" "y" [1]) n,
          (get_digest_repos (add_image (add_image emptyCache "a" "x" [1]) "b" "y" [1])
              d).filter (fun r => r ∉ ["a", "b"]) = [] →
          ∃ n', (n', d) ∈ ([("a", [1])] : List (String × Digest)))) :=
  (C3_select_repositories (add_image (add_image emptyCache "a" "x" [1]) "b" "y" [1])
    ["a", "b"]).1 true [("a", [1])] rfl

end DRU
